import Mathlib

/-!
Shallow embedding of `cnv_profile.py` (cnv_suite): the Event/Chromosome/Phylogeny
data model, the interval-layer aggregation pipeline (slice / envelop / lineage
filter / split-merge flatten), the event-generation policy of `add_arm`,
`add_focal` and `add_cnv_events`, and the greedy phylogeny construction.

Machine conventions: genomic coordinates are `Nat`; copy-number deltas and CCFs
are `Rat` (the Python code computes with ints and floats whose values here are
always exact small rationals); an `intervaltree.IntervalTree` is modelled as a
list of intervals with set-insertion (`intervaltree` stores a set of intervals;
adding an already-present interval is a no-op); fallible dictionary lookups
return `Option`, and the loop over queue/pool in `make_phylogeny` returns
`Except` so that the `popleft`-on-empty `IndexError` is observable.
-/

attribute [local semireducible] Rat.add Rat.mul Rat.sub Rat.inv

/-- Decidable equality of `Except` outcomes, for concrete evaluation. -/
instance {ε α : Type _} [DecidableEq ε] [DecidableEq α] : DecidableEq (Except ε α)
  | .error e1, .error e2 =>
    if h : e1 = e2 then .isTrue (by rw [h]) else .isFalse (fun hc => h (Except.error.inj hc))
  | .error _, .ok _ => .isFalse Except.noConfusion
  | .ok _, .error _ => .isFalse Except.noConfusion
  | .ok a1, .ok a2 =>
    if h : a1 = a2 then .isTrue (by rw [h]) else .isFalse (fun hc => h (Except.ok.inj hc))

/-- Event record: `Event = namedtuple("Event", ['type', 'allele', 'cluster_num', 'cn_change'])`.
`cluster_num` is `Option Nat` because the merge reducer `sum_levels` writes `None` there. -/
structure Event where
  type : String
  allele : String
  cluster_num : Option Nat
  cn_change : Rat
  deriving DecidableEq

/-- One interval of an interval tree: `Interval(begin, end, data)` with half-open
range `[lo, hi)` (an `intervaltree.Interval` contains point `p` iff `begin <= p < end`). -/
structure Iv where
  lo : Nat
  hi : Nat
  data : Event
  deriving DecidableEq

/-- Accumulated copy number at a point: the sum of `cn_change` over all layers
whose half-open interval covers `p`. -/
def accCN (t : List Iv) (p : Nat) : Rat :=
  ((t.filter (fun l => decide (l.lo ≤ p ∧ p < l.hi))).map (fun l => l.data.cn_change)).sum

/-- `Chromosome.sum_levels`: the `merge_overlaps` data reducer, summing `cn_change`
and dropping the cluster attribution. -/
def sumLevels (a b : Event) : Event :=
  ⟨a.type, a.allele, none, a.cn_change + b.cn_change⟩

/-- Insert a value into a strictly increasing list, keeping it strictly increasing. -/
def insertSorted (x : Nat) : List Nat → List Nat
  | [] => [x]
  | y :: ys => if x < y then x :: y :: ys else if x = y then y :: ys else y :: insertSorted x ys

/-- All interval boundary points of a tree, in strictly increasing order. -/
def bounds (t : List Iv) : List Nat :=
  t.foldr (fun l acc => insertSorted l.lo (insertSorted l.hi acc)) []

/-- Consecutive pairs of boundary points: the atomic gaps produced by `split_overlaps`. -/
def gapsOf (t : List Iv) : List (Nat × Nat) :=
  (bounds t).zip (bounds t).tail

/-- The layers of `t` covering point `a`. -/
def groupAt (t : List Iv) (a : Nat) : List Iv :=
  t.filter (fun l => decide (l.lo ≤ a ∧ a < l.hi))

/-- `split_overlaps()` followed by `merge_overlaps(data_reducer=sum_levels)`:
every atomic gap covered by at least one layer becomes a single interval whose
data is the `sum_levels`-fold of the covering layers (a singleton group keeps
its original event, as in the library). -/
def flattenTree (t : List Iv) : List Iv :=
  (gapsOf t).filterMap (fun g =>
    match groupAt t g.1 with
    | [] => none
    | x :: rest => some ⟨g.1, g.2, rest.foldl (fun e l => sumLevels e l.data) x.data⟩)

/-- `IntervalTree.slice(x)` on a single interval: an interval strictly containing
`x` is replaced by its two halves, both keeping the same data. -/
def sliceLayer (x : Nat) (l : Iv) : List Iv :=
  if l.lo < x ∧ x < l.hi then [⟨l.lo, x, l.data⟩, ⟨x, l.hi, l.data⟩] else [l]

/-- `IntervalTree.slice(x)` over the whole tree. -/
def sliceAt (t : List Iv) (x : Nat) : List Iv :=
  t.flatMap (sliceLayer x)

/-- `IntervalTree.envelop(s, e)`: the intervals lying entirely within `[s, e]`. -/
def envelopF (s e : Nat) (t : List Iv) : List Iv :=
  t.filter (fun l => decide (s ≤ l.lo ∧ l.hi ≤ e))

/-- `i.data.cluster_num in lineage_clusters` (Python `None in list` is `False`). -/
def clusterMem (ev : Event) (lin : List Nat) : Bool :=
  match ev.cluster_num with
  | some k => lin.contains k
  | none => false

/-- Keep only the layers attributed to a cluster of the given lineage. -/
def filterLineage (t : List Iv) (lin : List Nat) : List Iv :=
  t.filter (fun l => clusterMem l.data lin)

/-- The per-allele body of `Chromosome.calc_current_cnv_lineage`: slice the tree
at `s` and `e`, keep the enveloped intervals whose cluster is in the lineage,
then split and merge with `sum_levels`. -/
def lineageQueryTree (t : List Iv) (s e : Nat) (lin : List Nat) : List Iv :=
  flattenTree (filterLineage (envelopF s e (sliceAt (sliceAt t s) e)) lin)

/-- `Chromosome`: name, length and the two per-allele layer trees. -/
structure Chromosome where
  chr_name : String
  chr_length : Nat
  paternal_tree : List Iv
  maternal_tree : List Iv
  deriving DecidableEq

/-- Set-insertion into an interval tree (`IntervalTree` is a set of intervals). -/
def insertLayer (t : List Iv) (iv : Iv) : List Iv :=
  if iv ∈ t then t else t ++ [iv]

/-- `Chromosome.add_seg`: record a new layer on the tree selected by `allele`. -/
def addSeg (c : Chromosome) (ty allele : String) (cluster : Nat) (cn : Rat) (s e : Nat) :
    Chromosome :=
  if allele = "paternal" then
    ⟨c.chr_name, c.chr_length, insertLayer c.paternal_tree ⟨s, e, ty, allele, some cluster, cn⟩,
      c.maternal_tree⟩
  else
    ⟨c.chr_name, c.chr_length, c.paternal_tree,
      insertLayer c.maternal_tree ⟨s, e, ty, allele, some cluster, cn⟩⟩

/-- `Chromosome.add_seg_interval`: record a layer spanning an existing interval,
routed by that interval's `allele` field. -/
def addSegInterval (c : Chromosome) (ty : String) (cluster : Nat) (cn : Rat) (iv : Iv) :
    Chromosome :=
  addSeg c ty iv.data.allele cluster cn iv.lo iv.hi

/-- `Phylogeny`: number of subclones, `parents` map (root cluster 1 maps to `none`)
and `ccfs` map, both as association lists. -/
structure Phylogeny where
  num_subclones : Nat
  parents : List (Nat × Option Nat)
  ccfs : List (Nat × Rat)
  deriving DecidableEq

/-- The `while node:` loop of `Phylogeny.get_lineage`, with explicit fuel:
`none` means the loop has not terminated within `fuel` iterations, `some (ok l)`
a normal return, `some (error _)` a raised `KeyError`.  Python stops the walk at
a falsy node (`None` or `0`). -/
def lineageAux (parents : List (Nat × Option Nat)) (node : Option Nat) (acc : List Nat)
    (fuel : Nat) : Option (Except String (List Nat)) :=
  match fuel with
  | 0 => none
  | fuel' + 1 =>
    match node with
    | none => some (Except.ok acc.reverse)
    | some k =>
      if k = 0 then some (Except.ok acc.reverse)
      else
        match parents.lookup k with
        | none => some (Except.error "KeyError")
        | some pk => lineageAux parents pk (k :: acc) fuel'

/-- `Phylogeny.get_lineage`, run with enough fuel for any acyclic parents map. -/
def Phylogeny.getLineage (ph : Phylogeny) (node : Nat) : Option (Except String (List Nat)) :=
  lineageAux ph.parents (some node) [] (ph.parents.length + 1)

/-- `Chromosome.calc_current_cnv_lineage`: lineage-scoped flattened state of both
alleles over `[s, e)`; undefined when `get_lineage` fails or diverges. -/
def Chromosome.calcLineage (c : Chromosome) (s e : Nat) (lin : List Nat) :
    List Iv × List Iv :=
  (lineageQueryTree c.paternal_tree s e lin, lineageQueryTree c.maternal_tree s e lin)

/-- `Chromosome.calc_current_cnv_lineage` with the lineage obtained from the phylogeny. -/
def Chromosome.calcCurrentCnvLineage (c : Chromosome) (s e : Nat) (cluster : Nat)
    (ph : Phylogeny) : Option (List Iv × List Iv) :=
  match ph.getLineage cluster with
  | some (Except.ok lin) => some (c.calcLineage s e lin)
  | _ => none

/-- CCF lookup for a layer's cluster id, as used by `calc_full_cnv`
(`phylogeny.ccfs[i.data.cluster_num]`; a missing key raises). -/
def ccfLookup (ph : Phylogeny) (k : Option Nat) : Option Rat :=
  match k with
  | some k' => ph.ccfs.lookup k'
  | none => none

/-- Weight every layer's `cn_change` by its cluster's CCF; `none` if any lookup fails. -/
def weightAll (t : List Iv) (f : Option Nat → Option Rat) : Option (List Iv) :=
  match t with
  | [] => some []
  | l :: rest =>
    match f l.data.cluster_num with
    | none => none
    | some w =>
      (weightAll rest f).map
        (fun ws => ⟨l.lo, l.hi, l.data.type, l.data.allele, l.data.cluster_num,
          l.data.cn_change * w⟩ :: ws)

/-- `Chromosome.calc_full_cnv`: CCF-weight every layer of each allele, then split
and merge with `sum_levels`. -/
def Chromosome.calcFullCnv (c : Chromosome) (ph : Phylogeny) :
    Option (List Iv × List Iv) :=
  match weightAll c.paternal_tree (ccfLookup ph), weightAll c.maternal_tree (ccfLookup ph) with
  | some pw, some mw => some (flattenTree pw, flattenTree mw)
  | _, _ => none

/-- The three code paths of `add_arm` after the two `np.random.rand()` draws:
full deletion, single-copy deletion, amplification. -/
inductive ArmBranch
  | delFull
  | delOne
  | amp
  deriving DecidableEq

/-- The suppression statistic of the `add_arm` deletion branch, exactly as the
source computes it: `weighted_del += o.data.cn_change == 0 * (o.end - o.begin) / (end - start)`
(by Python precedence the right-hand side is the comparison
`o.data.cn_change == (0 * (o.end - o.begin)) / (end - start)`, and the boolean is
summed as 0 or 1). -/
def armWeightedDel (other : List Iv) (s e : Nat) : Rat :=
  (other.map (fun o =>
    if o.data.cn_change = 0 * ((o.hi : Rat) - (o.lo : Rat)) / ((e : Rat) - (s : Rat))
    then (1 : Rat) else 0)).sum

/-- `deletion_adjust = 0 if weighted_del > 0.3 else 1`. -/
def armDeletionAdjust (other : List Iv) (s e : Nat) : Rat :=
  if (3 : Rat) / 10 < armWeightedDel other s e then 0 else 1

/-- Modelled from the spec: the deletion-suppression test as §4.4 of the spec
words it — the length-weighted fraction of the reference allele already at CN 0
within the region (sum over CN-0 intervals of interval length over region
length).  The source's `weighted_del` line differs from this; this definition
exists only to state that divergence. -/
def armWeightedDelSpec (other : List Iv) (s e : Nat) : Rat :=
  (other.map (fun o =>
    if o.data.cn_change = 0 then ((o.hi : Rat) - (o.lo : Rat)) / ((e : Rat) - (s : Rat))
    else 0)).sum

/-- Per-interval CN delta of each `add_arm` branch. -/
def armDelta (branch : ArmBranch) (adjust : Rat) (cn : Rat) : Rat :=
  match branch with
  | .delFull => -cn * adjust
  | .delOne => if cn = 0 ∨ adjust = 0 then 0 else -1
  | .amp => cn

/-- `CNV_Profile.add_arm` with the randomized choices (region, target allele,
branch) taken as parameters and the lineage given explicitly: query the
lineage-scoped state of both alleles, compute the deletion-adjust factor from
the reference allele, and append one `arm` layer per flattened target interval. -/
def addArmCore (c : Chromosome) (cluster : Nat) (s e : Nat) (targetPaternal : Bool)
    (branch : ArmBranch) (lin : List Nat) : Chromosome :=
  let q := c.calcLineage s e lin
  let desired := if targetPaternal then q.1 else q.2
  let other := if targetPaternal then q.2 else q.1
  let adjust := armDeletionAdjust other s e
  desired.foldl
    (fun ch i => addSegInterval ch "arm" cluster (armDelta branch adjust i.data.cn_change) i) c

/-- The two code paths of `add_focal`: deletion (with the per-interval Poisson
draw abstracted as `draws`) and amplification (with the single `Poisson(0.8)+1`
draw abstracted as `cnvLevel`). -/
inductive FocalBranch
  | del (draws : Iv → Nat)
  | amp (cnvLevel : Nat)

/-- Per-interval CN delta of each `add_focal` branch:
deletion removes `max(1, level - Poisson(level/10))` copies at nonzero levels,
amplification adds the drawn level at nonzero levels; level-0 intervals get 0. -/
def focalDelta (branch : FocalBranch) (i : Iv) : Rat :=
  match branch with
  | .del d => -(if i.data.cn_change ≠ 0 then max 1 (i.data.cn_change - (d i : Rat)) else 0)
  | .amp lvl => if i.data.cn_change ≠ 0 then (lvl : Rat) else 0

/-- `CNV_Profile.add_focal` with the randomized choices taken as parameters and
the lineage given explicitly. -/
def addFocalCore (c : Chromosome) (cluster : Nat) (s e : Nat) (targetPaternal : Bool)
    (branch : FocalBranch) (lin : List Nat) : Chromosome :=
  let q := c.calcLineage s e lin
  let desired := if targetPaternal then q.1 else q.2
  desired.foldl (fun ch i => addSegInterval ch "focal" cluster (focalDelta branch i) i) c

/-- Lineage-scoped accumulated copy number of one allele at a point: the sum of
`cn_change` over the lineage's layers covering `p`. -/
def lineageAcc (c : Chromosome) (paternal : Bool) (lin : List Nat) (p : Nat) : Rat :=
  accCN (filterLineage (if paternal then c.paternal_tree else c.maternal_tree) lin) p

/-- Number of iterations of `for _ in np.arange(x)`: `⌈x⌉` for positive `x`, else 0. -/
def iterCount (x : Rat) : Nat :=
  if x ≤ 0 then 0 else x.ceil.toNat

/-- The sequence of `(cluster, kind)` event requests issued by
`CNV_Profile.add_cnv_events(arm_num, focal_num, p_whole, ratio_clonal, ...)`:
clonal events for cluster 1, then per non-root subclone the subclonal loops —
which the source runs `arm_num * ratio_clonal / num_subclones` (and likewise for
focal) times. -/
def addCnvEventsSchedule (armNum focalNum ratioClonal : Rat) (numSubclones : Nat) :
    List (Nat × String) :=
  List.replicate (iterCount (armNum * ratioClonal)) (1, "arm") ++
  List.replicate (iterCount (focalNum * ratioClonal)) (1, "focal") ++
  (List.range' 2 numSubclones).flatMap (fun cl =>
    List.replicate (iterCount (armNum * ratioClonal / (numSubclones : Rat))) (cl, "arm") ++
    List.replicate (iterCount (focalNum * ratioClonal / (numSubclones : Rat))) (cl, "focal"))

/-- `CNV_Profile.init_all_chrom` for one contig: a fresh chromosome carrying one
haploid layer per allele spanning `[1, size)`. -/
def initChrom (name : String) (size : Nat) : Chromosome :=
  let c : Chromosome := ⟨name, size, [], []⟩
  let c := addSeg c "haploid" "maternal" 1 1 1 size
  addSeg c "haploid" "paternal" 1 1 1 size

/-- `tree[p]`: the layers whose half-open interval contains `p`. -/
def pointQuery (t : List Iv) (p : Nat) : List Iv :=
  t.filter (fun l => decide (l.lo ≤ p ∧ p < l.hi))

/-- No interval of `t` strictly contains the point `x`. -/
def noCross (x : Nat) (t : List Iv) : Prop :=
  ∀ l ∈ t, ¬(l.lo < x ∧ x < l.hi)

/-- All stored intervals are non-degenerate (`intervaltree` raises on null intervals). -/
def wfChrom (c : Chromosome) : Prop :=
  (∀ l ∈ c.paternal_tree, l.lo < l.hi) ∧ (∀ l ∈ c.maternal_tree, l.lo < l.hi)

instance (c : Chromosome) : Decidable (wfChrom c) :=
  inferInstanceAs (Decidable
    ((∀ l ∈ c.paternal_tree, l.lo < l.hi) ∧ (∀ l ∈ c.maternal_tree, l.lo < l.hi)))

/-- `calc_current_cnv_lineage` with the receiver state threaded through the
method body: the code copies each allele tree (`.copy()`), slices and filters
the copies, and only reads the chromosome's fields, so the chromosome the
method leaves behind is field-for-field the receiver. -/
def Chromosome.calcCurrentCnvLineageRun (c : Chromosome) (s e : Nat) (cluster : Nat)
    (ph : Phylogeny) : Option (List Iv × List Iv) × Chromosome :=
  match ph.getLineage cluster with
  | some (Except.ok lin) =>
    let patIntervals := c.paternal_tree
    let patIntervals := sliceAt patIntervals s
    let patIntervals := sliceAt patIntervals e
    let patTree := filterLineage (envelopF s e patIntervals) lin
    let patFlat := flattenTree patTree
    let matIntervals := c.maternal_tree
    let matIntervals := sliceAt matIntervals s
    let matIntervals := sliceAt matIntervals e
    let matTree := filterLineage (envelopF s e matIntervals) lin
    let matFlat := flattenTree matTree
    (some (patFlat, matFlat), ⟨c.chr_name, c.chr_length, c.paternal_tree, c.maternal_tree⟩)
  | _ => (none, ⟨c.chr_name, c.chr_length, c.paternal_tree, c.maternal_tree⟩)

/-- `calc_full_cnv` with the receiver state threaded: the weighted trees are
built fresh, the receiver's fields are only read. -/
def Chromosome.calcFullCnvRun (c : Chromosome) (ph : Phylogeny) :
    Option (List Iv × List Iv) × Chromosome :=
  match weightAll c.paternal_tree (ccfLookup ph), weightAll c.maternal_tree (ccfLookup ph) with
  | some pw, some mw =>
    (some (flattenTree pw, flattenTree mw),
      ⟨c.chr_name, c.chr_length, c.paternal_tree, c.maternal_tree⟩)
  | _, _ => (none, ⟨c.chr_name, c.chr_length, c.paternal_tree, c.maternal_tree⟩)

/-- CCF-weighted accumulated value at a point over all layers, any cluster:
the conservation sum computed by `calc_full_cnv`. -/
def weightedAcc (t : List Iv) (f : Option Nat → Option Rat) (p : Nat) : Rat :=
  ((t.filter (fun l => decide (l.lo ≤ p ∧ p < l.hi))).map
    (fun l => l.data.cn_change * ((f l.data.cluster_num).getD 0))).sum

/-- Adjacent distinct intervals never carry the same accumulated value: the
"each maximal run of constant value is a single interval" reading.  `false`
when two consecutive intervals of the (ordered) list abut and carry equal
`cn_change`. -/
def coalescedB : List Iv → Bool
  | a :: b :: rest =>
    !(decide (a.hi = b.lo) && decide (a.data.cn_change = b.data.cn_change))
      && coalescedB (b :: rest)
  | _ => true

/-- `{cluster + 2: ccf for cluster, ccf in enumerate(ccfs)}`: pair the sorted
CCFs with cluster ids counting up from `k`. -/
def clusterize : Nat → List Rat → List (Nat × Rat)
  | _, [] => []
  | k, v :: vs => (k, v) :: clusterize (k + 1) vs

/-- One pass of the inner `for c in unassigned.copy()` loop of `make_phylogeny`:
scan the pool in order, attach every cluster whose CCF fits the remaining
budget (decrementing it), and return (attached, skipped). -/
def scanAttach (budget : Rat) : List (Nat × Rat) → List (Nat × Rat) × List (Nat × Rat)
  | [] => ([], [])
  | c :: rest =>
    if c.2 ≤ budget then
      let s := scanAttach (budget - c.2) rest
      (c :: s.1, s.2)
    else
      let s := scanAttach budget rest
      (s.1, c :: s.2)

/-- The attached and skipped parts of a scan pass partition the pool
(needed below to justify termination of the work-queue loop). -/
lemma scanAttach_length (b : Rat) (pool : List (Nat × Rat)) :
    (scanAttach b pool).1.length + (scanAttach b pool).2.length = pool.length := by
  induction pool generalizing b with
  | nil => rfl
  | cons c rest ih =>
    unfold scanAttach
    split_ifs with hc
    · have := ih (b - c.2)
      dsimp only
      rw [List.length_cons, List.length_cons]
      omega
    · have := ih b
      dsimp only
      rw [List.length_cons, List.length_cons]
      omega

/-- The `while len(unassigned) > 0` loop of `make_phylogeny`: pop the next
parent from the FIFO queue (`IndexError` when it is empty), attach every
unassigned cluster that fits its remaining CCF budget, enqueue the attached
clusters as future parents, and record their parent assignments.  Queue and
pool carry each cluster's CCF alongside its id (the dict lookups of the source
always succeed on them). -/
def phyloLoop (queue unassigned : List (Nat × Rat)) (parents : List (Nat × Option Nat)) :
    Except String (List (Nat × Option Nat)) :=
  match unassigned with
  | [] => Except.ok parents
  | u :: us =>
    match queue with
    | [] => Except.error "IndexError: pop from an empty deque"
    | p :: rest =>
      let s := scanAttach p.2 (u :: us)
      phyloLoop (rest ++ s.1) s.2 (parents ++ s.1.map (fun c => (c.1, some p.1)))
termination_by 2 * unassigned.length + queue.length
decreasing_by
  simp_wf
  rename_i u us
  have h := scanAttach_length c.2 (u :: us)
  simp only [List.length_cons] at h
  omega

/-- `Phylogeny.make_phylogeny` with the `np.random.rand` draws as explicit
input: sort descending, assign cluster ids from 2, seed the parent dict with
the root (CCF 1), and run the greedy work-queue loop. -/
def makePhylogeny (draws : List Rat) :
    Except String (List (Nat × Option Nat) × List (Nat × Rat)) :=
  let sortedDraws := draws.mergeSort (fun a b => decide (b ≤ a))
  let subCcfs := clusterize 2 sortedDraws
  let ccfs := subCcfs ++ [(1, (1 : Rat))]
  (phyloLoop [(1, (1 : Rat))] subCcfs [(1, none)]).map (fun ps => (ps, ccfs))

/-- The non-root cluster ids `2, ..., num_subclones + 1` of a draw. -/
def subcloneIds (draws : List Rat) : List Nat :=
  (clusterize 2 (draws.mergeSort (fun a b => decide (b ≤ a)))).map Prod.fst

/-- Total CCF lookup in an association list (all lookups performed by the
source hit existing keys). -/
def ccfD (ccfs : List (Nat × Rat)) (k : Nat) : Rat :=
  ((ccfs.lookup k).getD 0)

/-- Sum of the CCFs of the direct children of cluster `k` in a parents list. -/
def childSum (ccfv : Nat → Rat) (parents : List (Nat × Option Nat)) (k : Nat) : Rat :=
  ((parents.filter (fun en => decide (en.2 = some k))).map (fun en => ccfv en.1)).sum

/-- Root-only phylogeny (zero subclones). -/
def rootPhylo : Phylogeny := ⟨0, [(1, none)], [(1, 1)]⟩

/-- A maternal event history reachable by a p-arm and a q-arm amplification on
a fresh chromosome of length 100: the haploid layer plus two adjacent arm
layers of delta 1. -/
def chAdj : Chromosome :=
  ⟨"1", 100, [⟨1, 100, "haploid", "paternal", some 1, 1⟩],
    [⟨1, 100, "haploid", "maternal", some 1, 1⟩,
     ⟨1, 50, "arm", "maternal", some 1, 1⟩,
     ⟨50, 100, "arm", "maternal", some 1, 1⟩]⟩

/-- Reference-allele flattened intervals with a short fully-deleted segment:
CN 0 on `[1,2)`, CN 1 on `[2,11)`. -/
def refOther : List Iv :=
  [⟨1, 2, "haploid", "maternal", some 1, 0⟩, ⟨2, 11, "haploid", "maternal", some 1, 1⟩]

/-- A cyclic parents map: clusters 2 and 3 are each other's parent. -/
def cycParents : List (Nat × Option Nat) := [(2, some 3), (3, some 2)]

/-! ### Flattening: split_overlaps + merge_overlaps is a pointwise-correct partition -/

lemma accCN_cons (l : Iv) (t : List Iv) (p : Nat) :
    accCN (l :: t) p = (if l.lo ≤ p ∧ p < l.hi then l.data.cn_change else 0) + accCN t p := by
  by_cases h : l.lo ≤ p ∧ p < l.hi <;> simp [accCN, List.filter_cons, h]

lemma accCN_append (t u : List Iv) (p : Nat) :
    accCN (t ++ u) p = accCN t p + accCN u p := by
  simp [accCN, List.filter_append]

lemma mem_insertSorted {x z : Nat} : ∀ {l : List Nat}, z ∈ insertSorted x l ↔ z = x ∨ z ∈ l := by
  intro l
  induction l with
  | nil => simp [insertSorted]
  | cons y ys ih =>
    unfold insertSorted
    split_ifs with h1 h2
    · simp
    · subst h2
      simp only [List.mem_cons]
      tauto
    · simp only [List.mem_cons, ih]
      tauto

lemma sorted_insertSorted {x : Nat} : ∀ {l : List Nat}, l.Sorted (· < ·) →
    (insertSorted x l).Sorted (· < ·) := by
  intro l
  induction l with
  | nil => intro _; simp [insertSorted]
  | cons y ys ih =>
    intro hs
    obtain ⟨hy, hys⟩ := List.sorted_cons.mp hs
    unfold insertSorted
    split_ifs with h1 h2
    · refine List.sorted_cons.mpr ⟨?_, hs⟩
      intro b hb
      rcases List.mem_cons.mp hb with rfl | hb
      · exact h1
      · exact lt_trans h1 (hy b hb)
    · exact hs
    · refine List.sorted_cons.mpr ⟨?_, ih hys⟩
      intro b hb
      rcases mem_insertSorted.mp hb with rfl | hb
      · omega
      · exact hy b hb

lemma mem_bounds {t : List Iv} {x : Nat} :
    x ∈ bounds t ↔ ∃ l ∈ t, x = l.lo ∨ x = l.hi := by
  induction t with
  | nil => simp [bounds]
  | cons l t ih =>
    show x ∈ insertSorted l.lo (insertSorted l.hi (bounds t)) ↔ _
    rw [mem_insertSorted, mem_insertSorted, ih]
    simp only [List.mem_cons]
    constructor
    · rintro (rfl | rfl | ⟨l', hl', h⟩)
      · exact ⟨l, Or.inl rfl, Or.inl rfl⟩
      · exact ⟨l, Or.inl rfl, Or.inr rfl⟩
      · exact ⟨l', Or.inr hl', h⟩
    · rintro ⟨l', rfl | hl', h⟩
      · rcases h with rfl | rfl
        · exact Or.inl rfl
        · exact Or.inr (Or.inl rfl)
      · exact Or.inr (Or.inr ⟨l', hl', h⟩)

lemma bounds_sorted (t : List Iv) : (bounds t).Sorted (· < ·) := by
  induction t with
  | nil => simp [bounds]
  | cons l t ih =>
    exact sorted_insertSorted (sorted_insertSorted ih)

lemma zip_tail_sorted_between {l : List Nat} (hs : l.Sorted (· < ·)) {a b : Nat}
    (h : (a, b) ∈ l.zip l.tail) : a < b ∧ ∀ c ∈ l, c ≤ a ∨ b ≤ c := by
  induction l with
  | nil => simp at h
  | cons x xs ih =>
    cases xs with
    | nil => simp at h
    | cons y ys =>
      rw [List.tail_cons, List.zip_cons_cons] at h
      rcases List.mem_cons.mp h with h1 | h2
      · obtain ⟨rfl, rfl⟩ := Prod.mk.injEq .. ▸ h1
        refine ⟨(List.sorted_cons.mp hs).1 b (List.mem_cons_self ..), ?_⟩
        intro c hc
        rcases List.mem_cons.mp hc with rfl | hc
        · exact Or.inl le_rfl
        · rcases List.mem_cons.mp hc with rfl | hc
          · exact Or.inr le_rfl
          · exact Or.inr (le_of_lt ((List.sorted_cons.mp (List.sorted_cons.mp hs).2).1 c hc))
      · have hs' := (List.sorted_cons.mp hs).2
        obtain ⟨hab, hall⟩ := ih hs' h2
        refine ⟨hab, ?_⟩
        intro c hc
        rcases List.mem_cons.mp hc with rfl | hc
        · have ha : a ∈ y :: ys := (List.of_mem_zip h2).1
          exact Or.inl (le_of_lt ((List.sorted_cons.mp hs).1 a ha))
        · exact hall c hc

lemma zip_tail_pairwise {l : List Nat} (hs : l.Sorted (· < ·)) :
    (l.zip l.tail).Pairwise (fun g h => g.2 ≤ h.1) := by
  induction l with
  | nil => simp
  | cons x xs ih =>
    cases xs with
    | nil => simp
    | cons y ys =>
      rw [List.tail_cons, List.zip_cons_cons]
      have hs' := (List.sorted_cons.mp hs).2
      refine List.Pairwise.cons ?_ (by simpa using ih hs')
      rintro ⟨u, v⟩ hg
      have hu : u ∈ y :: ys := (List.of_mem_zip hg).1
      rcases List.mem_cons.mp hu with rfl | hu
      · exact le_rfl
      · exact le_of_lt ((List.sorted_cons.mp hs').1 u hu)

lemma mem_flattenTree {t : List Iv} {iv : Iv} (h : iv ∈ flattenTree t) :
    ∃ g ∈ gapsOf t, ∃ x rest, groupAt t g.1 = x :: rest ∧
      iv = ⟨g.1, g.2, rest.foldl (fun e l => sumLevels e l.data) x.data⟩ := by
  simp only [flattenTree, List.mem_filterMap] at h
  obtain ⟨g, hg, hsome⟩ := h
  rcases hgr : groupAt t g.1 with _ | ⟨x, rest⟩ <;> rw [hgr] at hsome
  · simp at hsome
  · exact ⟨g, hg, x, rest, hgr, (Option.some.inj hsome).symm⟩

lemma foldl_sumLevels_cn (es : List Iv) (e : Event) :
    (es.foldl (fun a l => sumLevels a l.data) e).cn_change
      = e.cn_change + (es.map (fun l => l.data.cn_change)).sum := by
  induction es generalizing e with
  | nil => simp
  | cons l es ih =>
    rw [List.foldl_cons, ih]
    simp only [sumLevels, List.map_cons, List.sum_cons]
    ring

lemma accCN_eq_groupAt (t : List Iv) (a : Nat) :
    accCN t a = ((groupAt t a).map (fun l => l.data.cn_change)).sum := rfl

lemma flattenTree_value {t : List Iv} {iv : Iv} (h : iv ∈ flattenTree t) {p : Nat}
    (h1 : iv.lo ≤ p) (h2 : p < iv.hi) : iv.data.cn_change = accCN t p := by
  obtain ⟨⟨a, b⟩, hg, x, rest, hgr, rfl⟩ := mem_flattenTree h
  dsimp only at h1 h2 ⊢
  have hmem : (a, b) ∈ (bounds t).zip (bounds t).tail := by simpa [gapsOf] using hg
  obtain ⟨hab, hbetween⟩ := zip_tail_sorted_between (bounds_sorted t) hmem
  have hv : (rest.foldl (fun e l => sumLevels e l.data) x.data).cn_change = accCN t a := by
    rw [foldl_sumLevels_cn, accCN_eq_groupAt, hgr]
    simp
  have hpg : accCN t p = accCN t a := by
    unfold accCN
    refine congrArg _ (congrArg _ (List.filter_congr ?_))
    intro l hl
    have hlo : l.lo ∈ bounds t := mem_bounds.mpr ⟨l, hl, Or.inl rfl⟩
    have hhi : l.hi ∈ bounds t := mem_bounds.mpr ⟨l, hl, Or.inr rfl⟩
    have c1 := hbetween l.lo hlo
    have c2 := hbetween l.hi hhi
    simp only [decide_eq_decide]
    omega
  rw [hpg, ← hv]

lemma flattenTree_pairwise (t : List Iv) :
    (flattenTree t).Pairwise (fun u v => u.hi ≤ v.lo) := by
  unfold flattenTree
  have hgaps : (gapsOf t).Pairwise (fun g h => g.2 ≤ h.1) := by
    have := zip_tail_pairwise (bounds_sorted t)
    simpa [gapsOf] using this
  refine List.Pairwise.filterMap _ ?_ hgaps
  intro g g' hgg b hb b' hb'
  rw [Option.mem_def] at hb hb'
  rcases hx : groupAt t g.1 with _ | ⟨x, rest⟩ <;> rw [hx] at hb
  · simp at hb
  rcases hx' : groupAt t g'.1 with _ | ⟨x', rest'⟩ <;> rw [hx'] at hb'
  · simp at hb'
  obtain rfl := (Option.some.inj hb).symm
  obtain rfl := (Option.some.inj hb').symm
  exact hgg

lemma flattenTree_lo_lt_hi {t : List Iv} {iv : Iv} (h : iv ∈ flattenTree t) :
    iv.lo < iv.hi := by
  obtain ⟨⟨a, b⟩, hg, x, rest, hgr, rfl⟩ := mem_flattenTree h
  have hmem : (a, b) ∈ (bounds t).zip (bounds t).tail := by simpa [gapsOf] using hg
  exact (zip_tail_sorted_between (bounds_sorted t) hmem).1

lemma flattenTree_within {t : List Iv} {s e : Nat}
    (hse : ∀ l ∈ t, s ≤ l.lo ∧ l.hi ≤ e ∧ l.lo < l.hi)
    {iv : Iv} (h : iv ∈ flattenTree t) : s ≤ iv.lo ∧ iv.hi ≤ e := by
  obtain ⟨⟨a, b⟩, hg, x, rest, hgr, rfl⟩ := mem_flattenTree h
  have hmem : (a, b) ∈ (bounds t).zip (bounds t).tail := by simpa [gapsOf] using hg
  have h1 : a ∈ bounds t := (List.of_mem_zip hmem).1
  have h2 : b ∈ bounds t := List.mem_of_mem_tail (List.of_mem_zip hmem).2
  have hb : ∀ x ∈ bounds t, s ≤ x ∧ x ≤ e := by
    intro x hx
    obtain ⟨l, hl, hor⟩ := mem_bounds.mp hx
    have := hse l hl
    rcases hor with rfl | rfl <;> omega
  have hb1 := hb _ h1
  have hb2 := hb _ h2
  dsimp only
  omega

/-! ### Slicing and enveloping preserve pointwise accumulation on the query region -/

lemma accCN_nil (p : Nat) : accCN [] p = 0 := rfl

lemma accCN_singleton (l : Iv) (p : Nat) :
    accCN [l] p = if l.lo ≤ p ∧ p < l.hi then l.data.cn_change else 0 := by
  rw [accCN_cons]
  simp [accCN]

lemma accCN_pair (a b : Iv) (p : Nat) :
    accCN [a, b] p = (if a.lo ≤ p ∧ p < a.hi then a.data.cn_change else 0)
      + (if b.lo ≤ p ∧ p < b.hi then b.data.cn_change else 0) := by
  rw [accCN_cons, accCN_singleton]

lemma sliceAt_cons (l : Iv) (t : List Iv) (x : Nat) :
    sliceAt (l :: t) x = sliceLayer x l ++ sliceAt t x :=
  List.flatMap_cons ..

lemma accCN_sliceLayer (x : Nat) (l : Iv) (p : Nat) :
    accCN (sliceLayer x l) p = accCN [l] p := by
  unfold sliceLayer
  split_ifs with h
  · rw [accCN_pair, accCN_singleton]
    dsimp only
    split_ifs <;> first | (exfalso; omega) | ring1
  · rfl

lemma accCN_sliceAt (t : List Iv) (x p : Nat) :
    accCN (sliceAt t x) p = accCN t p := by
  induction t with
  | nil => rfl
  | cons l t ih =>
    rw [sliceAt_cons, accCN_append, ih, accCN_sliceLayer, accCN_singleton, accCN_cons]

lemma sliceAt_noCross_self (t : List Iv) (x : Nat) : noCross x (sliceAt t x) := by
  intro l hl
  simp only [sliceAt, List.mem_flatMap] at hl
  obtain ⟨m, hm, hlm⟩ := hl
  unfold sliceLayer at hlm
  split_ifs at hlm with h
  · simp only [List.mem_cons, List.not_mem_nil, or_false] at hlm
    rcases hlm with rfl | rfl <;> dsimp only <;> omega
  · simp only [List.mem_singleton] at hlm
    subst hlm
    exact h

lemma sliceAt_noCross_preserve {t : List Iv} {y : Nat} (h : noCross y t) (x : Nat) :
    noCross y (sliceAt t x) := by
  intro l hl
  simp only [sliceAt, List.mem_flatMap] at hl
  obtain ⟨m, hm, hlm⟩ := hl
  have hmy := h m hm
  unfold sliceLayer at hlm
  split_ifs at hlm with hx
  · simp only [List.mem_cons, List.not_mem_nil, or_false] at hlm
    rcases hlm with rfl | rfl <;> dsimp only <;> omega
  · simp only [List.mem_singleton] at hlm
    subst hlm
    exact hmy

lemma accCN_envelopF {t : List Iv} {s e p : Nat} (hs : noCross s t) (he : noCross e t)
    (h1 : s ≤ p) (h2 : p < e) : accCN (envelopF s e t) p = accCN t p := by
  induction t with
  | nil => rfl
  | cons l t ih =>
    have hs' : noCross s t := fun m hm => hs m (List.mem_cons_of_mem _ hm)
    have he' : noCross e t := fun m hm => he m (List.mem_cons_of_mem _ hm)
    have hsl := hs l (List.mem_cons_self ..)
    have hel := he l (List.mem_cons_self ..)
    by_cases hk : s ≤ l.lo ∧ l.hi ≤ e
    · have : envelopF s e (l :: t) = l :: envelopF s e t := by
        simp [envelopF, List.filter_cons, hk]
      rw [this, accCN_cons, accCN_cons, ih hs' he']
    · have : envelopF s e (l :: t) = envelopF s e t := by
        simp [envelopF, List.filter_cons, hk]
      rw [this, accCN_cons, ih hs' he']
      have hnc : ¬(l.lo ≤ p ∧ p < l.hi) := by omega
      rw [if_neg hnc, zero_add]

lemma accCN_clip (t : List Iv) {s e p : Nat} (h1 : s ≤ p) (h2 : p < e) :
    accCN (envelopF s e (sliceAt (sliceAt t s) e)) p = accCN t p := by
  have hs : noCross s (sliceAt (sliceAt t s) e) :=
    sliceAt_noCross_preserve (sliceAt_noCross_self t s) e
  have he : noCross e (sliceAt (sliceAt t s) e) := sliceAt_noCross_self _ e
  rw [accCN_envelopF hs he h1 h2, accCN_sliceAt, accCN_sliceAt]

/-! ### The lineage filter commutes with slicing and enveloping -/

lemma filterLineage_sliceLayer (l : Iv) (x : Nat) (lin : List Nat) :
    filterLineage (sliceLayer x l) lin
      = if clusterMem l.data lin then sliceLayer x l else [] := by
  unfold sliceLayer filterLineage
  by_cases h2 : clusterMem l.data lin <;>
    split_ifs <;> simp [List.filter_cons, h2]

lemma filterLineage_cons_pos {l : Iv} {lin : List Nat} (h : clusterMem l.data lin)
    (t : List Iv) : filterLineage (l :: t) lin = l :: filterLineage t lin := by
  simp [filterLineage, List.filter_cons, h]

lemma filterLineage_cons_neg {l : Iv} {lin : List Nat} (h : ¬clusterMem l.data lin)
    (t : List Iv) : filterLineage (l :: t) lin = filterLineage t lin := by
  simp [filterLineage, List.filter_cons, h]

lemma filterLineage_sliceAt (t : List Iv) (x : Nat) (lin : List Nat) :
    filterLineage (sliceAt t x) lin = sliceAt (filterLineage t lin) x := by
  induction t with
  | nil => rfl
  | cons l t ih =>
    have hsplit : filterLineage (sliceAt (l :: t) x) lin
        = filterLineage (sliceLayer x l) lin ++ filterLineage (sliceAt t x) lin := by
      rw [sliceAt_cons]
      exact List.filter_append ..
    rw [hsplit, filterLineage_sliceLayer, ih]
    by_cases h : clusterMem l.data lin
    · rw [if_pos h, filterLineage_cons_pos h, sliceAt_cons]
    · rw [if_neg h, filterLineage_cons_neg h, List.nil_append]

lemma filterLineage_envelopF (t : List Iv) (s e : Nat) (lin : List Nat) :
    filterLineage (envelopF s e t) lin = envelopF s e (filterLineage t lin) :=
  List.filter_comm ..

lemma lineageQueryTree_eq (t : List Iv) (s e : Nat) (lin : List Nat) :
    lineageQueryTree t s e lin
      = flattenTree (envelopF s e (sliceAt (sliceAt (filterLineage t lin) s) e)) := by
  unfold lineageQueryTree
  rw [filterLineage_envelopF, filterLineage_sliceAt, filterLineage_sliceAt]

/-! ### Wellformedness and the zero floor of add_arm / add_focal -/

lemma sliceLayer_wf {m : Iv} (hm : m.lo < m.hi) {x : Nat} {l : Iv}
    (h : l ∈ sliceLayer x m) : l.lo < l.hi := by
  unfold sliceLayer at h
  split_ifs at h with hx
  · simp only [List.mem_cons, List.not_mem_nil, or_false] at h
    rcases h with rfl | rfl <;> dsimp only <;> omega
  · simp only [List.mem_singleton] at h
    subst h
    exact hm

lemma sliceAt_wf {t : List Iv} (hwf : ∀ l ∈ t, l.lo < l.hi) {x : Nat} {l : Iv}
    (h : l ∈ sliceAt t x) : l.lo < l.hi := by
  simp only [sliceAt, List.mem_flatMap] at h
  obtain ⟨m, hm, hlm⟩ := h
  exact sliceLayer_wf (hwf m hm) hlm

lemma clip_mem_props {t : List Iv} (hwf : ∀ l ∈ t, l.lo < l.hi) {s e : Nat}
    {lin : List Nat} {l : Iv}
    (h : l ∈ filterLineage (envelopF s e (sliceAt (sliceAt t s) e)) lin) :
    s ≤ l.lo ∧ l.hi ≤ e ∧ l.lo < l.hi := by
  have h1 : l ∈ envelopF s e (sliceAt (sliceAt t s) e) := List.mem_of_mem_filter h
  obtain ⟨h2, h3⟩ := List.mem_filter.mp h1
  have h4 : l.lo < l.hi := sliceAt_wf (fun m hm => sliceAt_wf hwf hm) h2
  simp only [decide_eq_true_eq] at h3
  exact ⟨h3.1, h3.2, h4⟩

lemma lineageQueryTree_mem_within {t : List Iv} (hwf : ∀ l ∈ t, l.lo < l.hi)
    {s e : Nat} {lin : List Nat} {iv : Iv} (h : iv ∈ lineageQueryTree t s e lin) :
    s ≤ iv.lo ∧ iv.hi ≤ e := by
  unfold lineageQueryTree at h
  exact flattenTree_within (fun l hl => clip_mem_props hwf hl) h

lemma lineageQueryTree_value {t : List Iv} {s e : Nat} {lin : List Nat} {iv : Iv}
    (h : iv ∈ lineageQueryTree t s e lin) {p : Nat} (h1 : iv.lo ≤ p) (h2 : p < iv.hi)
    (hs : s ≤ p) (he : p < e) :
    iv.data.cn_change = accCN (filterLineage t lin) p := by
  rw [lineageQueryTree_eq] at h
  rw [flattenTree_value h h1 h2, accCN_clip _ hs he]

lemma accCN_insertLayer_zero {t : List Iv} {iv : Iv} {lin : List Nat} {p : Nat}
    (h : iv.lo ≤ p → p < iv.hi → iv.data.cn_change = 0) :
    accCN (filterLineage (insertLayer t iv) lin) p = accCN (filterLineage t lin) p := by
  unfold insertLayer
  split_ifs with hmem
  · rfl
  · have hsplit : filterLineage (t ++ [iv]) lin
        = filterLineage t lin ++ filterLineage [iv] lin := List.filter_append ..
    rw [hsplit, accCN_append]
    by_cases hc : clusterMem iv.data lin
    · rw [show filterLineage [iv] lin = [iv] from by
        simp [filterLineage, List.filter_cons, hc], accCN_singleton]
      by_cases hcov : iv.lo ≤ p ∧ p < iv.hi
      · rw [if_pos hcov, h hcov.1 hcov.2, add_zero]
      · rw [if_neg hcov, add_zero]
    · rw [show filterLineage [iv] lin = [] from by
        simp [filterLineage, List.filter_cons, hc], accCN_nil, add_zero]

lemma lineageAcc_addSegInterval {c : Chromosome} {ty : String} {cluster : Nat} {cn : Rat}
    {iv : Iv} {tp : Bool} {lin : List Nat} {p : Nat}
    (h : iv.lo ≤ p → p < iv.hi → cn = 0) :
    lineageAcc (addSegInterval c ty cluster cn iv) tp lin p = lineageAcc c tp lin p := by
  unfold addSegInterval addSeg
  by_cases hal : iv.data.allele = "paternal"
  · rw [if_pos hal]
    cases tp
    · rfl
    · exact accCN_insertLayer_zero h
  · rw [if_neg hal]
    cases tp
    · exact accCN_insertLayer_zero h
    · rfl

lemma lineageAcc_foldl_addSegInterval (ty : String) (cluster : Nat) (tp : Bool)
    (lin : List Nat) (p : Nat) (f : Iv → Rat) :
    ∀ ivs : List Iv, (∀ i ∈ ivs, i.lo ≤ p → p < i.hi → f i = 0) →
    ∀ ch : Chromosome,
      lineageAcc (ivs.foldl (fun ch i => addSegInterval ch ty cluster (f i) i) ch) tp lin p
        = lineageAcc ch tp lin p := by
  intro ivs
  induction ivs with
  | nil => intro _ ch; rfl
  | cons i ivs ih =>
    intro h ch
    rw [List.foldl_cons, ih (fun j hj => h j (List.mem_cons_of_mem _ hj)),
      lineageAcc_addSegInterval (h i (List.mem_cons_self ..))]

lemma zero_floor_generic (c : Chromosome) (cluster s e : Nat) (tp : Bool) (lin : List Nat)
    (p : Nat) (hwf : wfChrom c) (h0 : lineageAcc c tp lin p = 0)
    (ty : String) (f : Iv → Rat) (hf : ∀ i : Iv, i.data.cn_change = 0 → f i = 0) :
    lineageAcc
      ((if tp then (c.calcLineage s e lin).1 else (c.calcLineage s e lin).2).foldl
        (fun ch i => addSegInterval ch ty cluster (f i) i) c) tp lin p = 0 := by
  have hwft : ∀ l ∈ (if tp then c.paternal_tree else c.maternal_tree), l.lo < l.hi := by
    cases tp
    · exact hwf.2
    · exact hwf.1
  have hdet : (if tp then (c.calcLineage s e lin).1 else (c.calcLineage s e lin).2)
      = lineageQueryTree (if tp then c.paternal_tree else c.maternal_tree) s e lin := by
    cases tp <;> rfl
  rw [hdet]
  rw [lineageAcc_foldl_addSegInterval ty cluster tp lin p f _ ?_ c]
  · exact h0
  · intro i hi h1 h2
    apply hf
    have hin := lineageQueryTree_mem_within hwft hi
    have hv := lineageQueryTree_value hi h1 h2 (by omega) (by omega)
    rw [hv]
    exact h0

/-- C5: for every call to `add_arm` or `add_focal` targeting an allele, any
genomic point whose lineage-scoped accumulated CN on the target allele was 0
before the call still has lineage-scoped accumulated CN 0 after the call, in
all branches including the arm-event full-deletion branch: the appended layer
carries delta 0 over every such point. -/
theorem c5_zero_floor (c : Chromosome) (cluster s e : Nat) (tp : Bool) (lin : List Nat)
    (p : Nat) (hwf : wfChrom c) (h0 : lineageAcc c tp lin p = 0) :
    (∀ branch : ArmBranch,
      lineageAcc (addArmCore c cluster s e tp branch lin) tp lin p = 0) ∧
    (∀ branch : FocalBranch,
      lineageAcc (addFocalCore c cluster s e tp branch lin) tp lin p = 0) := by
  constructor
  · intro branch
    have hz : ∀ i : Iv, i.data.cn_change = 0 →
        armDelta branch
          (armDeletionAdjust
            (if tp then (c.calcLineage s e lin).2 else (c.calcLineage s e lin).1) s e)
          i.data.cn_change = 0 := by
      intro i hi
      rw [hi]
      cases branch <;> simp [armDelta]
    unfold addArmCore
    exact zero_floor_generic c cluster s e tp lin p hwf h0 "arm"
      (fun i => armDelta branch
        (armDeletionAdjust
          (if tp then (c.calcLineage s e lin).2 else (c.calcLineage s e lin).1) s e)
        i.data.cn_change) hz
  · intro branch
    have hz : ∀ i : Iv, i.data.cn_change = 0 → focalDelta branch i = 0 := by
      intro i hi
      cases branch <;> simp [focalDelta, hi]
    unfold addFocalCore
    exact zero_floor_generic c cluster s e tp lin p hwf h0 "focal" (fun i => focalDelta branch i) hz

/-- Witness for C5 at a concrete input: a fresh length-100 chromosome queried for
cluster 2's lineage (which owns no layers, so the whole paternal allele sits at
lineage-scoped CN 0 at point 5). -/
theorem c5_zero_floor_witness :
    wfChrom (initChrom "1" 100) ∧
    lineageAcc (initChrom "1" 100) true [2] 5 = 0 ∧
    (∀ branch : ArmBranch,
      lineageAcc (addArmCore (initChrom "1" 100) 2 1 100 true branch [2]) true [2] 5 = 0) ∧
    (∀ branch : FocalBranch,
      lineageAcc (addFocalCore (initChrom "1" 100) 2 1 100 true branch [2]) true [2] 5 = 0) := by
  refine ⟨by decide, by decide, ?_, ?_⟩
  · exact (c5_zero_floor (initChrom "1" 100) 2 1 100 true [2] 5 (by decide) (by decide)).1
  · exact (c5_zero_floor (initChrom "1" 100) 2 1 100 true [2] 5 (by decide) (by decide)).2

lemma lineageQueryTree_congr {t u : List Iv} {lin : List Nat}
    (h : filterLineage t lin = filterLineage u lin) (s e : Nat) :
    lineageQueryTree t s e lin = lineageQueryTree u s e lin := by
  rw [lineageQueryTree_eq, lineageQueryTree_eq, h]

/-- C6: `calc_current_cnv_lineage` for cluster C depends only on the layers
whose cluster lies in C's lineage — two histories agreeing on the lineage
layers (but differing arbitrarily in sibling or descendant layers) give
identical results on both alleles. -/
theorem c6_lineage_isolation (A B : Chromosome) (s e cluster : Nat) (ph : Phylogeny)
    (lin : List Nat) (hlin : ph.getLineage cluster = some (Except.ok lin))
    (hp : filterLineage A.paternal_tree lin = filterLineage B.paternal_tree lin)
    (hm : filterLineage A.maternal_tree lin = filterLineage B.maternal_tree lin) :
    A.calcCurrentCnvLineage s e cluster ph = B.calcCurrentCnvLineage s e cluster ph := by
  unfold Chromosome.calcCurrentCnvLineage
  rw [hlin]
  dsimp only
  unfold Chromosome.calcLineage
  rw [lineageQueryTree_congr hp s e, lineageQueryTree_congr hm s e]

/-- Witness for C6 at a concrete input: a history with an extra cluster-2 layer
is indistinguishable from one without it when querying cluster 1's lineage. -/
theorem c6_lineage_isolation_witness :
    rootPhylo.getLineage 1 = some (Except.ok [1]) ∧
    (Chromosome.mk "1" 100
        [⟨1, 100, "haploid", "paternal", some 1, 1⟩, ⟨5, 10, "arm", "paternal", some 2, 3⟩]
        [⟨1, 100, "haploid", "maternal", some 1, 1⟩]).calcCurrentCnvLineage 1 100 1 rootPhylo
      = (Chromosome.mk "1" 100
          [⟨1, 100, "haploid", "paternal", some 1, 1⟩]
          [⟨1, 100, "haploid", "maternal", some 1, 1⟩]).calcCurrentCnvLineage 1 100 1
            rootPhylo := by
  constructor
  · decide
  · exact c6_lineage_isolation _ _ 1 100 1 rootPhylo [1] (by decide) (by decide) (by decide)

/-- C9: `calc_current_cnv_lineage` and `calc_full_cnv` never modify the
chromosome they are called on (the lineage query slices a copy of each tree and
the full aggregation builds fresh trees), so repeated queries over an unchanged
event history return equal results. -/
theorem c9_calc_preserves_trees (c : Chromosome) (s e cluster : Nat) (ph : Phylogeny) :
    (c.calcCurrentCnvLineageRun s e cluster ph).2 = c ∧
    (c.calcCurrentCnvLineageRun s e cluster ph).1 = c.calcCurrentCnvLineage s e cluster ph ∧
    ((c.calcCurrentCnvLineageRun s e cluster ph).2.calcCurrentCnvLineageRun s e cluster ph).1
      = (c.calcCurrentCnvLineageRun s e cluster ph).1 ∧
    (c.calcFullCnvRun ph).2 = c ∧
    (c.calcFullCnvRun ph).1 = c.calcFullCnv ph ∧
    ((c.calcFullCnvRun ph).2.calcFullCnvRun ph).1 = (c.calcFullCnvRun ph).1 := by
  have h1 : (c.calcCurrentCnvLineageRun s e cluster ph).2 = c := by
    unfold Chromosome.calcCurrentCnvLineageRun
    cases hg : ph.getLineage cluster with
    | none => rfl
    | some ex => cases ex with
      | error msg => rfl
      | ok lin => rfl
  have h2 : (c.calcCurrentCnvLineageRun s e cluster ph).1
      = c.calcCurrentCnvLineage s e cluster ph := by
    unfold Chromosome.calcCurrentCnvLineageRun Chromosome.calcCurrentCnvLineage
    cases hg : ph.getLineage cluster with
    | none => rfl
    | some ex => cases ex with
      | error msg => rfl
      | ok lin => rfl
  have h4 : (c.calcFullCnvRun ph).2 = c := by
    unfold Chromosome.calcFullCnvRun
    cases hp : weightAll c.paternal_tree (ccfLookup ph) <;>
      cases hm : weightAll c.maternal_tree (ccfLookup ph) <;> rfl
  have h5 : (c.calcFullCnvRun ph).1 = c.calcFullCnv ph := by
    unfold Chromosome.calcFullCnvRun Chromosome.calcFullCnv
    cases hp : weightAll c.paternal_tree (ccfLookup ph) <;>
      cases hm : weightAll c.maternal_tree (ccfLookup ph) <;> rfl
  refine ⟨h1, h2, ?_, h4, h5, ?_⟩
  · rw [h1]
  · rw [h4]

/-- C10: layer intervals are half-open — a layer recorded by `add_seg` covers
exactly the positions `start ≤ p < end`; on a freshly initialized chromosome of
length L, each allele's haploid layer covers positions `1 .. L-1` and a point
query at L returns no layers. -/
theorem c10_half_open (ty al : String) (cluster : Nat) (cn : Rat) (s e p : Nat)
    (name : String) (size : Nat) :
    ((⟨s, e, ty, al, some cluster, cn⟩ : Iv) ∈
        pointQuery ((addSeg ⟨name, size, [], []⟩ ty al cluster cn s e).paternal_tree
          ++ (addSeg ⟨name, size, [], []⟩ ty al cluster cn s e).maternal_tree) p
      ↔ s ≤ p ∧ p < e) ∧
    pointQuery (initChrom name size).paternal_tree size = [] ∧
    pointQuery (initChrom name size).maternal_tree size = [] ∧
    (1 ≤ p → p < size →
      pointQuery (initChrom name size).paternal_tree p
        = [⟨1, size, "haploid", "paternal", some 1, 1⟩] ∧
      pointQuery (initChrom name size).maternal_tree p
        = [⟨1, size, "haploid", "maternal", some 1, 1⟩]) := by
  refine ⟨?_, ?_, ?_, ?_⟩
  · unfold addSeg
    by_cases hal : al = "paternal" <;>
      simp [hal, insertLayer, pointQuery, List.filter_cons, List.mem_filter,
        decide_eq_true_eq]
  · simp [initChrom, addSeg, insertLayer, pointQuery, List.filter_cons, lt_irrefl]
  · simp [initChrom, addSeg, insertLayer, pointQuery, List.filter_cons, lt_irrefl]
  · intro h1 h2
    constructor <;>
      simp [initChrom, addSeg, insertLayer, pointQuery, List.filter_cons, h1, h2]

/-- Witness for C10 at concrete inputs: an arm layer on `[10, 20)` covers 15 but
not 20, and the haploid layers of a fresh length-100 chromosome cover 5. -/
theorem c10_half_open_witness :
    ((1 : Nat) ≤ 15 ∧ (15 : Nat) < 100) ∧
    (((⟨10, 20, "arm", "paternal", some 1, 2⟩ : Iv) ∈
        pointQuery ((addSeg ⟨"1", 100, [], []⟩ "arm" "paternal" 1 2 10 20).paternal_tree
          ++ (addSeg ⟨"1", 100, [], []⟩ "arm" "paternal" 1 2 10 20).maternal_tree) 15
      ↔ (10 ≤ 15 ∧ 15 < 20)) ∧
    pointQuery (initChrom "1" 100).paternal_tree 100 = [] ∧
    pointQuery (initChrom "1" 100).maternal_tree 100 = [] ∧
    (pointQuery (initChrom "1" 100).paternal_tree 15
        = [⟨1, 100, "haploid", "paternal", some 1, 1⟩] ∧
      pointQuery (initChrom "1" 100).maternal_tree 15
        = [⟨1, 100, "haploid", "maternal", some 1, 1⟩])) := by
  have h := c10_half_open "arm" "paternal" 1 2 10 20 15 "1" 100
  exact ⟨by decide, h.1, h.2.1, h.2.2.1, h.2.2.2 (by decide) (by decide)⟩

/-- C1: the subclonal loops of `add_cnv_events` reuse `ratio_clonal` instead of
`1 - ratio_clonal`.  With `arm_num = 10`, `focal_num = 0`, `ratio_clonal = 1`
(fully clonal) and 2 subclones, each non-root subclone is still asked for 5 arm
events, while the spec's allocation `arm_num * (1 - ratio_clonal) / num_subclones`
gives 0. -/
theorem c1_subclonal_ratio_bug :
    (addCnvEventsSchedule 10 0 1 2).count (2, "arm") = 5 ∧
    (addCnvEventsSchedule 10 0 1 2).count (3, "arm") = 5 ∧
    iterCount (10 * (1 - 1) / 2) = 0 := by
  exact ⟨by decide, by decide, by decide⟩

/-- C2: by Python operator precedence, `weighted_del` sums the booleans
`cn_change == 0` instead of the length-weighted fractions.  With the reference
allele at CN 0 on `[1,2)` and CN 1 on `[2,11)` over region `[1,11)`, the spec's
length-weighted fraction is `1/10 ≤ 0.3` (deletion allowed), but the code's
statistic evaluates to 1, exceeds 0.3, and suppresses the deletion. -/
theorem c2_weighted_del_bug :
    armWeightedDel refOther 1 11 = 1 ∧
    armDeletionAdjust refOther 1 11 = 0 ∧
    armWeightedDelSpec refOther 1 11 = 1 / 10 ∧
    ¬((3 : Rat) / 10 < armWeightedDelSpec refOther 1 11) := by
  exact ⟨by decide, by decide, by decide, by decide⟩

/-- C3 as stated fails: on a history with two adjacent arm layers of equal
delta (reachable by a p-arm and a q-arm amplification), the lineage query
returns two adjacent maternal intervals carrying the same accumulated value 2 —
`merge_overlaps` (strict) merges overlapping intervals, not adjacent
equal-valued intervals. -/
theorem c3_counterexample :
    chAdj.calcCurrentCnvLineage 1 100 1 rootPhylo
      = some ([⟨1, 100, "haploid", "paternal", some 1, 1⟩],
          [⟨1, 50, "haploid", "maternal", none, 2⟩,
           ⟨50, 100, "haploid", "maternal", none, 2⟩]) ∧
    coalescedB [(⟨1, 50, "haploid", "maternal", none, 2⟩ : Iv),
        ⟨50, 100, "haploid", "maternal", none, 2⟩] = false := by
  exact ⟨by decide, by decide⟩

lemma weightedAcc_cons (l : Iv) (t : List Iv) (f : Option Nat → Option Rat) (p : Nat) :
    weightedAcc (l :: t) f p
      = (if l.lo ≤ p ∧ p < l.hi then l.data.cn_change * ((f l.data.cluster_num).getD 0)
          else 0) + weightedAcc t f p := by
  by_cases h : l.lo ≤ p ∧ p < l.hi <;> simp [weightedAcc, List.filter_cons, h]

lemma weightAll_acc {t : List Iv} {f : Option Nat → Option Rat} {wt : List Iv}
    (h : weightAll t f = some wt) (p : Nat) : accCN wt p = weightedAcc t f p := by
  induction t generalizing wt with
  | nil =>
    unfold weightAll at h
    obtain rfl := (Option.some.inj h).symm
    simp [weightedAcc, accCN]
  | cons l t ih =>
    unfold weightAll at h
    cases hf : f l.data.cluster_num with
    | none => rw [hf] at h; simp at h
    | some w =>
      rw [hf] at h
      cases hrec : weightAll t f with
      | none => rw [hrec] at h; simp at h
      | some ws =>
        rw [hrec] at h
        have h2 : (⟨l.lo, l.hi, l.data.type, l.data.allele, l.data.cluster_num,
            l.data.cn_change * w⟩ : Iv) :: ws = wt := Option.some.inj h
        subst h2
        rw [accCN_cons, ih hrec, weightedAcc_cons, hf]
        rfl

/-- C3 amended: for every chromosome, query region and cluster, the per-allele
interval lists returned by `calc_current_cnv_lineage` (and the per-allele
profiles of `calc_full_cnv`) are strictly ordered, disjoint and pointwise
correct — each interval lies in the region and carries the accumulated
(respectively CCF-weighted) value of every point it covers — but two adjacent
intervals may carry the same accumulated value (adjacent equal-valued runs are
not coalesced). -/
theorem c3_flatten_amended (c : Chromosome) (s e cluster : Nat) (ph : Phylogeny)
    (po mo fp fm : List Iv) (lin : List Nat)
    (hlin : ph.getLineage cluster = some (Except.ok lin))
    (hq : c.calcCurrentCnvLineage s e cluster ph = some (po, mo))
    (hwf : wfChrom c)
    (hfull : c.calcFullCnv ph = some (fp, fm)) :
    (po.Pairwise (fun u v => u.hi ≤ v.lo) ∧ mo.Pairwise (fun u v => u.hi ≤ v.lo) ∧
      (∀ iv ∈ po, iv.lo < iv.hi ∧ s ≤ iv.lo ∧ iv.hi ≤ e ∧
        ∀ p, iv.lo ≤ p → p < iv.hi →
          iv.data.cn_change = accCN (filterLineage c.paternal_tree lin) p) ∧
      (∀ iv ∈ mo, iv.lo < iv.hi ∧ s ≤ iv.lo ∧ iv.hi ≤ e ∧
        ∀ p, iv.lo ≤ p → p < iv.hi →
          iv.data.cn_change = accCN (filterLineage c.maternal_tree lin) p)) ∧
    (fp.Pairwise (fun u v => u.hi ≤ v.lo) ∧ fm.Pairwise (fun u v => u.hi ≤ v.lo) ∧
      (∀ iv ∈ fp, ∀ p, iv.lo ≤ p → p < iv.hi →
        iv.data.cn_change = weightedAcc c.paternal_tree (ccfLookup ph) p) ∧
      (∀ iv ∈ fm, ∀ p, iv.lo ≤ p → p < iv.hi →
        iv.data.cn_change = weightedAcc c.maternal_tree (ccfLookup ph) p)) := by
  have hqeq : po = lineageQueryTree c.paternal_tree s e lin
      ∧ mo = lineageQueryTree c.maternal_tree s e lin := by
    unfold Chromosome.calcCurrentCnvLineage at hq
    rw [hlin] at hq
    dsimp only at hq
    obtain h := Option.some.inj hq
    unfold Chromosome.calcLineage at h
    exact ⟨(congrArg Prod.fst h).symm, (congrArg Prod.snd h).symm⟩
  obtain ⟨hpo, hmo⟩ := hqeq
  have hqprops : ∀ t : List Iv, (∀ l ∈ t, l.lo < l.hi) →
      ∀ iv ∈ lineageQueryTree t s e lin, iv.lo < iv.hi ∧ s ≤ iv.lo ∧ iv.hi ≤ e ∧
        ∀ p, iv.lo ≤ p → p < iv.hi → iv.data.cn_change = accCN (filterLineage t lin) p := by
    intro t hwft iv hiv
    have hltv : iv.lo < iv.hi := flattenTree_lo_lt_hi hiv
    have hin := lineageQueryTree_mem_within hwft hiv
    refine ⟨hltv, hin.1, hin.2, ?_⟩
    intro p h1 h2
    exact lineageQueryTree_value hiv h1 h2 (by omega) (by omega)
  have hfw : ∃ pw mw, weightAll c.paternal_tree (ccfLookup ph) = some pw
      ∧ weightAll c.maternal_tree (ccfLookup ph) = some mw
      ∧ fp = flattenTree pw ∧ fm = flattenTree mw := by
    unfold Chromosome.calcFullCnv at hfull
    cases hp : weightAll c.paternal_tree (ccfLookup ph) with
    | none => rw [hp] at hfull; simp at hfull
    | some pw =>
      cases hm : weightAll c.maternal_tree (ccfLookup ph) with
      | none => rw [hp, hm] at hfull; simp at hfull
      | some mw =>
        rw [hp, hm] at hfull
        obtain h := Option.some.inj hfull
        exact ⟨pw, mw, rfl, rfl, (congrArg Prod.fst h).symm, (congrArg Prod.snd h).symm⟩
  obtain ⟨pw, mw, hpw, hmw, hfp, hfm⟩ := hfw
  refine ⟨⟨?_, ?_, ?_, ?_⟩, ⟨?_, ?_, ?_, ?_⟩⟩
  · rw [hpo]; exact flattenTree_pairwise _
  · rw [hmo]; exact flattenTree_pairwise _
  · rw [hpo]; exact hqprops c.paternal_tree hwf.1
  · rw [hmo]; exact hqprops c.maternal_tree hwf.2
  · rw [hfp]; exact flattenTree_pairwise _
  · rw [hfm]; exact flattenTree_pairwise _
  · rw [hfp]
    intro iv hiv p h1 h2
    rw [flattenTree_value hiv h1 h2, weightAll_acc hpw]
  · rw [hfm]
    intro iv hiv p h1 h2
    rw [flattenTree_value hiv h1 h2, weightAll_acc hmw]

/-- Witness for the amended C3 at the concrete adjacent-layer history. -/
theorem c3_flatten_amended_witness :
    rootPhylo.getLineage 1 = some (Except.ok [1]) ∧
    chAdj.calcCurrentCnvLineage 1 100 1 rootPhylo
      = some ([⟨1, 100, "haploid", "paternal", some 1, 1⟩],
          [⟨1, 50, "haploid", "maternal", none, 2⟩,
           ⟨50, 100, "haploid", "maternal", none, 2⟩]) ∧
    wfChrom chAdj ∧
    chAdj.calcFullCnv rootPhylo
      = some ([⟨1, 100, "haploid", "paternal", some 1, 1⟩],
          [⟨1, 50, "haploid", "maternal", none, 2⟩,
           ⟨50, 100, "haploid", "maternal", none, 2⟩]) ∧
    ([⟨1, 50, "haploid", "maternal", none, 2⟩,
      (⟨50, 100, "haploid", "maternal", none, 2⟩ : Iv)].Pairwise
        (fun u v => u.hi ≤ v.lo)) := by
  refine ⟨by decide, by decide, by decide, by decide, ?_⟩
  exact (c3_flatten_amended chAdj 1 100 1 rootPhylo
    [⟨1, 100, "haploid", "paternal", some 1, 1⟩]
    [⟨1, 50, "haploid", "maternal", none, 2⟩, ⟨50, 100, "haploid", "maternal", none, 2⟩]
    [⟨1, 100, "haploid", "paternal", some 1, 1⟩]
    [⟨1, 50, "haploid", "maternal", none, 2⟩, ⟨50, 100, "haploid", "maternal", none, 2⟩]
    [1] (by decide) (by decide) (by decide) (by decide)).1.2.1

/-! ### get_lineage: chain on well-formed maps, divergence on cycles -/

lemma lookup_mem {β : Type _} {l : List (Nat × β)} {a : Nat} {b : β}
    (h : l.lookup a = some b) : (a, b) ∈ l := by
  induction l with
  | nil => simp [List.lookup] at h
  | cons x xs ih =>
    obtain ⟨k, v⟩ := x
    by_cases hx : a = k
    · subst hx
      simp [List.lookup] at h
      subst h
      exact List.mem_cons_self ..
    · have hbeq : (a == k) = false := by simp [hx]
      rw [show List.lookup a ((k, v) :: xs) = List.lookup a xs from by
        simp [List.lookup, hbeq]] at h
      exact List.mem_cons_of_mem _ (ih h)

lemma cyc_lineage_none : ∀ fuel : Nat, ∀ acc : List Nat,
    lineageAux cycParents (some 2) acc fuel = none ∧
    lineageAux cycParents (some 3) acc fuel = none := by
  intro fuel
  induction fuel with
  | zero => intro acc; exact ⟨rfl, rfl⟩
  | succ f ih =>
    intro acc
    constructor
    · have h : lineageAux cycParents (some 2) acc (f + 1)
          = lineageAux cycParents (some 3) (2 :: acc) f := rfl
      rw [h]
      exact (ih (2 :: acc)).2
    · have h : lineageAux cycParents (some 3) acc (f + 1)
          = lineageAux cycParents (some 2) (3 :: acc) f := rfl
      rw [h]
      exact (ih (3 :: acc)).1

lemma lineageAux_ok_chain (parents : List (Nat × Option Nat))
    (hwf : ∀ en ∈ parents, en.2 ≠ some 0) :
    ∀ (fuel k : Nat) (acc l : List Nat), k ≠ 0 →
      lineageAux parents (some k) acc fuel = some (Except.ok l) →
      ∃ chain, l = acc.reverse ++ chain ∧ chain.head? = some k ∧
        chain.Chain' (fun a b => parents.lookup a = some (some b)) ∧
        ∃ z, chain.getLast? = some z ∧ parents.lookup z = some none := by
  intro fuel
  induction fuel with
  | zero => intro k acc l hk h; simp [lineageAux] at h
  | succ f ih =>
    intro k acc l hk h
    rw [show lineageAux parents (some k) acc (f + 1)
        = (if k = 0 then some (Except.ok acc.reverse) else
            match parents.lookup k with
            | none => some (Except.error "KeyError")
            | some pk => lineageAux parents pk (k :: acc) f) from rfl] at h
    rw [if_neg hk] at h
    cases hlk : parents.lookup k with
    | none =>
      rw [hlk] at h
      exact absurd (Option.some.inj h) (by simp)
    | some pk =>
      rw [hlk] at h
      cases pk with
      | none =>
        cases f with
        | zero => simp [lineageAux] at h
        | succ f2 =>
          have hl : l = (k :: acc).reverse := (Except.ok.inj (Option.some.inj h)).symm
          refine ⟨[k], ?_, rfl, ?_, ⟨k, rfl, hlk⟩⟩
          · rw [hl, List.reverse_cons]
          · simp
      | some k2 =>
        have hmem := lookup_mem hlk
        have hk2 : k2 ≠ 0 := by
          intro h0
          exact hwf (k, some k2) hmem (by rw [h0])
        obtain ⟨chain, hl, hh, hc, z, hz, hzl⟩ := ih k2 (k :: acc) l hk2 h
        refine ⟨k :: chain, ?_, rfl, ?_, ?_⟩
        · rw [hl, List.reverse_cons, List.append_assoc]
          rfl
        · rw [List.chain'_cons']
          refine ⟨?_, hc⟩
          intro y hy
          rw [hh, Option.mem_def] at hy
          obtain rfl := Option.some.inj hy.symm
          exact hlk
        · refine ⟨z, ?_, hzl⟩
          rw [List.getLast?_cons, hz]
          rfl

/-- C7 as stated fails: on the cyclic parents map `{2 ↦ 3, 3 ↦ 2}`, the
`get_lineage` walk never produces any outcome — for every number of loop
iterations it has neither returned nor raised, because the source has no
maximum-depth guard. -/
theorem c7_cycle_counterexample :
    ¬ ∃ fuel : Nat, (lineageAux cycParents (some 2) [] fuel).isSome = true := by
  rintro ⟨fuel, hf⟩
  rw [(cyc_lineage_none fuel []).1] at hf
  simp at hf

/-- C7 amended: on a well-formed parents map (no 0-valued parent entries), a
terminating `get_lineage` walk returns the parent chain from the node to the
root — self first, each step following `parents`, ending at a null-parent
cluster — and `get_lineage(root) = [root]`; but on a cyclic map the walk runs
forever (no maximum-depth bound, no structural error). -/
theorem c7_get_lineage_amended (ph : Phylogeny) (node : Nat) (l : List Nat)
    (hwf : ∀ en ∈ ph.parents, en.2 ≠ some 0) (hnode : node ≠ 0)
    (hok : ph.getLineage node = some (Except.ok l)) :
    (l.head? = some node ∧
      l.Chain' (fun a b => ph.parents.lookup a = some (some b)) ∧
      ∃ z, l.getLast? = some z ∧ ph.parents.lookup z = some none) ∧
    (∀ r : Nat, r ≠ 0 → ph.parents.lookup r = some none →
      ph.getLineage r = some (Except.ok [r])) ∧
    (∀ f : Nat, lineageAux cycParents (some 2) [] f = none) := by
  obtain ⟨chain, hl, hh, hc, hz⟩ :=
    lineageAux_ok_chain ph.parents hwf (ph.parents.length + 1) node [] l hnode hok
  rw [List.reverse_nil, List.nil_append] at hl
  subst hl
  refine ⟨⟨hh, hc, hz⟩, ?_, fun f => (cyc_lineage_none f []).1⟩
  intro r hr hlr
  have hne : ph.parents ≠ [] := by
    intro hemp
    rw [hemp] at hlr
    simp [List.lookup] at hlr
  obtain ⟨n, hn⟩ : ∃ n, ph.parents.length = n + 1 := by
    cases hp : ph.parents with
    | nil => exact absurd hp hne
    | cons x xs => exact ⟨xs.length, by simp⟩
  unfold Phylogeny.getLineage
  rw [hn]
  rw [show lineageAux ph.parents (some r) [] (n + 1 + 1)
      = (if r = 0 then some (Except.ok ([] : List Nat).reverse) else
          match ph.parents.lookup r with
          | none => some (Except.error "KeyError")
          | some pk => lineageAux ph.parents pk [r] (n + 1)) from rfl]
  rw [if_neg hr, hlr]
  rfl

/-- Witness for the amended C7: the two-cluster map `{1 ↦ None, 2 ↦ 1}` gives
`get_lineage(2) = [2, 1]` with the chain properties, `get_lineage(1) = [1]`,
and the cyclic map makes no progress in 5 iterations. -/
theorem c7_get_lineage_amended_witness :
    (([2, 1] : List Nat).head? = some 2 ∧
      ([2, 1] : List Nat).Chain'
        (fun a b => ([(1, none), (2, some 1)] : List (Nat × Option Nat)).lookup a
          = some (some b)) ∧
      ∃ z, ([2, 1] : List Nat).getLast? = some z ∧
        ([(1, none), (2, some 1)] : List (Nat × Option Nat)).lookup z = some none) ∧
    (Phylogeny.mk 1 [(1, none), (2, some 1)] [(1, 1), (2, 1)]).getLineage 1
      = some (Except.ok [1]) ∧
    lineageAux cycParents (some 2) [] 5 = none := by
  have h := c7_get_lineage_amended (Phylogeny.mk 1 [(1, none), (2, some 1)] [(1, 1), (2, 1)])
    2 [2, 1] (by decide) (by decide) (by decide)
  exact ⟨h.1, h.2.1 1 (by decide) (by decide), h.2.2 5⟩

/-! ### The greedy phylogeny loop: termination, full assignment, CCF budgets -/

lemma scanAttach_nil (b : Rat) : scanAttach b [] = ([], []) := rfl

lemma scanAttach_cons_le {u : Nat × Rat} {b : Rat} (h : u.2 ≤ b) (us : List (Nat × Rat)) :
    scanAttach b (u :: us)
      = (u :: (scanAttach (b - u.2) us).1, (scanAttach (b - u.2) us).2) := by
  simp [scanAttach, h]

lemma scanAttach_cons_gt {u : Nat × Rat} {b : Rat} (h : ¬u.2 ≤ b) (us : List (Nat × Rat)) :
    scanAttach b (u :: us)
      = ((scanAttach b us).1, u :: (scanAttach b us).2) := by
  simp [scanAttach, h]

lemma scanAttach_perm (b : Rat) (pool : List (Nat × Rat)) :
    ((scanAttach b pool).1 ++ (scanAttach b pool).2).Perm pool := by
  induction pool generalizing b with
  | nil => simp [scanAttach_nil]
  | cons u us ih =>
    by_cases h : u.2 ≤ b
    · rw [scanAttach_cons_le h]
      exact (ih (b - u.2)).cons u
    · rw [scanAttach_cons_gt h]
      exact List.perm_middle.trans ((ih b).cons u)

lemma scanAttach_sublist1 (b : Rat) (pool : List (Nat × Rat)) :
    (scanAttach b pool).1.Sublist pool := by
  induction pool generalizing b with
  | nil => simp [scanAttach_nil]
  | cons u us ih =>
    by_cases h : u.2 ≤ b
    · rw [scanAttach_cons_le h]
      exact (ih (b - u.2)).cons₂ u
    · rw [scanAttach_cons_gt h]
      exact (ih b).cons u

lemma scanAttach_sublist2 (b : Rat) (pool : List (Nat × Rat)) :
    (scanAttach b pool).2.Sublist pool := by
  induction pool generalizing b with
  | nil => simp [scanAttach_nil]
  | cons u us ih =>
    by_cases h : u.2 ≤ b
    · rw [scanAttach_cons_le h]
      exact (ih (b - u.2)).cons u
    · rw [scanAttach_cons_gt h]
      exact (ih b).cons₂ u

lemma scanAttach_sum (pool : List (Nat × Rat)) : ∀ b : Rat, 0 ≤ b →
    ((scanAttach b pool).1.map (fun c => c.2)).sum ≤ b := by
  induction pool with
  | nil =>
    intro b hb
    simpa [scanAttach_nil] using hb
  | cons u us ih =>
    intro b hb
    by_cases h : u.2 ≤ b
    · rw [scanAttach_cons_le h]
      simp only [List.map_cons, List.sum_cons]
      have h2 := ih (b - u.2) (by linarith)
      linarith
    · rw [scanAttach_cons_gt h]
      exact ih b hb

lemma childSum_cons (ccfv : Nat → Rat) (en : Nat × Option Nat)
    (rest : List (Nat × Option Nat)) (k : Nat) :
    childSum ccfv (en :: rest) k
      = (if en.2 = some k then ccfv en.1 else 0) + childSum ccfv rest k := by
  by_cases h : en.2 = some k <;> simp [childSum, List.filter_cons, h]

lemma childSum_append (ccfv : Nat → Rat) (a b : List (Nat × Option Nat)) (k : Nat) :
    childSum ccfv (a ++ b) k = childSum ccfv a k + childSum ccfv b k := by
  simp [childSum, List.filter_append]

lemma childSum_eq_zero {ccfv : Nat → Rat} {parents : List (Nat × Option Nat)} {k : Nat}
    (h : ∀ en ∈ parents, en.2 ≠ some k) : childSum ccfv parents k = 0 := by
  induction parents with
  | nil => rfl
  | cons en rest ih =>
    rw [childSum_cons, if_neg (h en (List.mem_cons_self ..)), zero_add]
    exact ih (fun x hx => h x (List.mem_cons_of_mem _ hx))

lemma childSum_attached (ccfv : Nat → Rat) (att : List (Nat × Rat)) (pid k : Nat) :
    childSum ccfv (att.map (fun c => (c.1, some pid))) k
      = if k = pid then (att.map (fun c => ccfv c.1)).sum else 0 := by
  induction att with
  | nil => simp [childSum]
  | cons c cs ih =>
    rw [List.map_cons, childSum_cons, ih]
    by_cases h : k = pid
    · subst h
      simp
    · have h2 : ¬((some pid : Option Nat) = some k) := by
        intro hc
        exact h (Option.some.inj hc).symm
      simp [h, h2]

lemma phyloLoop_master (ccfv : Nat → Rat) (hpos : ∀ k, 0 ≤ ccfv k) :
    ∀ (queue unassigned : List (Nat × Rat)) (parents : List (Nat × Option Nat)),
    (∀ en ∈ queue ++ unassigned, ccfv en.1 = en.2) →
    ((queue ++ unassigned).map Prod.fst).Nodup →
    unassigned.Pairwise (fun a b => b.2 ≤ a.2) →
    (∀ u0 ∈ unassigned.head?, ∃ q ∈ queue, u0.2 ≤ q.2) →
    (∀ en ∈ parents, ∀ q ∈ queue ++ unassigned, en.2 ≠ some q.1) →
    (∀ k, childSum ccfv parents k ≤ ccfv k) →
    ∃ res, phyloLoop queue unassigned parents = Except.ok res ∧
      (res.map Prod.fst).Perm (parents.map Prod.fst ++ unassigned.map Prod.fst) ∧
      (∀ k, childSum ccfv res k ≤ ccfv k) := by
  intro queue unassigned parents
  induction queue, unassigned, parents using phyloLoop.induct with
  | case1 queue parents =>
    intro _ _ _ _ _ hcs
    exact ⟨parents, by rw [phyloLoop], by simp, hcs⟩
  | case2 parents u us =>
    intro _ _ _ hhead _ _
    obtain ⟨q, hq, _⟩ := hhead u rfl
    exact absurd hq (List.not_mem_nil q)
  | case3 parents u us p qrest s ih =>
    intro hcons hnodup hdesc hhead hfresh hcs
    have hperm := scanAttach_perm p.2 (u :: us)
    have hsub1 := scanAttach_sublist1 p.2 (u :: us)
    have hsub2 := scanAttach_sublist2 p.2 (u :: us)
    have hccfp : ccfv p.1 = p.2 := hcons p (List.mem_append_left _ (List.mem_cons_self ..))
    have hbudget : 0 ≤ p.2 := hccfp ▸ hpos p.1
    have hsum := scanAttach_sum (u :: us) p.2 hbudget
    -- membership transfers
    have hattmem : ∀ c ∈ (scanAttach p.2 (u :: us)).1, c ∈ u :: us := fun c hc =>
      hsub1.subset hc
    have hskipmem : ∀ c ∈ (scanAttach p.2 (u :: us)).2, c ∈ u :: us := fun c hc =>
      hsub2.subset hc
    have holdkeys : (((p :: qrest) ++ (u :: us)).map Prod.fst)
        = p.1 :: ((qrest ++ (u :: us)).map Prod.fst) := by simp
    have hpnotin : p.1 ∉ ((qrest ++ (u :: us)).map Prod.fst) := by
      have := holdkeys ▸ hnodup
      exact (List.nodup_cons.mp this).1
    have htailnodup : ((qrest ++ (u :: us)).map Prod.fst).Nodup := by
      have := holdkeys ▸ hnodup
      exact (List.nodup_cons.mp this).2
    have hnewperm : ((qrest ++ (scanAttach p.2 (u :: us)).1)
          ++ (scanAttach p.2 (u :: us)).2).Perm (qrest ++ (u :: us)) := by
      rw [List.append_assoc]
      exact List.Perm.append_left qrest hperm
    -- the six hypotheses at the new state
    have H1 : ∀ en ∈ (qrest ++ (scanAttach p.2 (u :: us)).1)
        ++ (scanAttach p.2 (u :: us)).2, ccfv en.1 = en.2 := by
      intro en hen
      have : en ∈ qrest ++ (u :: us) := hnewperm.mem_iff.mp hen
      rcases List.mem_append.mp this with h | h
      · exact hcons en (List.mem_append_left _ (List.mem_cons_of_mem _ h))
      · exact hcons en (List.mem_append_right _ h)
    have H2 : ((((qrest ++ (scanAttach p.2 (u :: us)).1)
        ++ (scanAttach p.2 (u :: us)).2).map Prod.fst)).Nodup := by
      exact ((hnewperm.map Prod.fst).nodup_iff).mpr htailnodup
    have H3 : (scanAttach p.2 (u :: us)).2.Pairwise (fun a b => b.2 ≤ a.2) :=
      List.Pairwise.sublist hsub2 hdesc
    have hle_u : ∀ u0 ∈ u :: us, u0.2 ≤ u.2 := by
      intro u0 hu0
      rcases List.mem_cons.mp hu0 with rfl | hu0
      · exact le_rfl
      · exact (List.pairwise_cons.mp hdesc).1 u0 hu0
    have H4 : ∀ u0 ∈ (scanAttach p.2 (u :: us)).2.head?,
        ∃ q ∈ qrest ++ (scanAttach p.2 (u :: us)).1, u0.2 ≤ q.2 := by
      intro u0 hu0
      have hu0mem : u0 ∈ (scanAttach p.2 (u :: us)).2 := by
        cases hh : (scanAttach p.2 (u :: us)).2 with
        | nil => rw [hh] at hu0; simp at hu0
        | cons a rest =>
          rw [hh] at hu0
          have hu0a : u0 = a := (Option.some.inj (Option.mem_def.mp hu0)).symm
          rw [hu0a]
          exact List.mem_cons_self ..
      have hu0le : u0.2 ≤ u.2 := hle_u u0 (hskipmem u0 hu0mem)
      obtain ⟨q, hqmem, hqle⟩ := hhead u rfl
      rcases List.mem_cons.mp hqmem with rfl | hqrest
      · have huatt : u ∈ (scanAttach q.2 (u :: us)).1 := by
          rw [scanAttach_cons_le hqle]
          exact List.mem_cons_self ..
        exact ⟨u, List.mem_append_right _ huatt, hu0le⟩
      · exact ⟨q, List.mem_append_left _ hqrest, le_trans hu0le hqle⟩
    have H5 : ∀ en ∈ parents ++ (scanAttach p.2 (u :: us)).1.map
          (fun c => (c.1, some p.1)),
        ∀ q ∈ (qrest ++ (scanAttach p.2 (u :: us)).1)
          ++ (scanAttach p.2 (u :: us)).2, en.2 ≠ some q.1 := by
      intro en hen q hq
      have hqold : q ∈ qrest ++ (u :: us) := hnewperm.mem_iff.mp hq
      rcases List.mem_append.mp hen with hen | hen
      · rcases List.mem_append.mp hqold with h | h
        · exact hfresh en hen q (List.mem_append_left _ (List.mem_cons_of_mem _ h))
        · exact hfresh en hen q (List.mem_append_right _ h)
      · obtain ⟨c, hc, rfl⟩ := List.mem_map.mp hen
        intro hcontra
        have hq1 : q.1 = p.1 := (Option.some.inj hcontra).symm
        have : q.1 ∈ (qrest ++ (u :: us)).map Prod.fst := List.mem_map_of_mem _ hqold
        rw [hq1] at this
        exact hpnotin this
    have H6 : ∀ k, childSum ccfv (parents ++ (scanAttach p.2 (u :: us)).1.map
        (fun c => (c.1, some p.1))) k ≤ ccfv k := by
      intro k
      rw [childSum_append, childSum_attached]
      by_cases hk : k = p.1
      · subst hk
        have hzero : childSum ccfv parents p.1 = 0 := childSum_eq_zero (fun en hen =>
          hfresh en hen p (List.mem_append_left _ (List.mem_cons_self ..)))
        rw [hzero, if_pos rfl, zero_add]
        have hmapeq : (scanAttach p.2 (u :: us)).1.map (fun c => ccfv c.1)
            = (scanAttach p.2 (u :: us)).1.map (fun c => c.2) := by
          apply List.map_congr_left
          intro c hc
          exact hcons c (List.mem_append_right _ (hattmem c hc))
        rw [hmapeq, hccfp]
        exact hsum
      · rw [if_neg hk, add_zero]
        exact hcs k
    obtain ⟨res, hres, hpermres, hcsres⟩ := ih H1 H2 H3 H4 H5 H6
    refine ⟨res, ?_, ?_, hcsres⟩
    · rw [show phyloLoop (p :: qrest) (u :: us) parents
          = phyloLoop (qrest ++ (scanAttach p.2 (u :: us)).1)
              (scanAttach p.2 (u :: us)).2
              (parents ++ (scanAttach p.2 (u :: us)).1.map (fun c => (c.1, some p.1)))
          from by rw [phyloLoop]]
      exact hres
    · refine hpermres.trans ?_
      rw [List.map_append]
      rw [List.append_assoc]
      refine List.Perm.append_left (parents.map Prod.fst) ?_
      have : ((scanAttach p.2 (u :: us)).1.map (fun c => (c.1, some p.1))).map Prod.fst
          = (scanAttach p.2 (u :: us)).1.map Prod.fst := by
        simp
      rw [this, ← List.map_append]
      exact hperm.map Prod.fst

/-- C4 as stated fails: `np.random.rand` draws lie in `[0, 1)`, so a draw of
exactly 0 is possible; `make_phylogeny` then stores a subclone CCF of 0, which
is not a fraction in `(0, 1]`. -/
theorem c4_ccf_zero_counterexample :
    makePhylogeny [0] = Except.ok ([(1, none), (2, some 1)], [(2, 0), (1, 1)]) ∧
    ¬(0 < (0 : Rat)) := by
  constructor
  · simp [makePhylogeny, phyloLoop, scanAttach, clusterize, Except.map]
  · decide

lemma clusterize_mem {vs : List Rat} : ∀ {k : Nat} {en : Nat × Rat},
    en ∈ clusterize k vs → k ≤ en.1 ∧ en.2 ∈ vs := by
  induction vs with
  | nil => intro k en h; simp [clusterize] at h
  | cons v vs ih =>
    intro k en h
    rcases List.mem_cons.mp h with rfl | h
    · exact ⟨le_refl _, List.mem_cons_self ..⟩
    · obtain ⟨h1, h2⟩ := ih h
      exact ⟨by omega, List.mem_cons_of_mem _ h2⟩

lemma clusterize_nodup_keys (vs : List Rat) : ∀ k, ((clusterize k vs).map Prod.fst).Nodup := by
  induction vs with
  | nil => intro k; simp [clusterize]
  | cons v vs ih =>
    intro k
    rw [show clusterize k (v :: vs) = (k, v) :: clusterize (k + 1) vs from rfl, List.map_cons,
      List.nodup_cons]
    refine ⟨?_, ih (k + 1)⟩
    intro hk
    obtain ⟨en, hen, henk⟩ := List.mem_map.mp hk
    have h1 := (clusterize_mem hen).1
    omega

lemma clusterize_pairwise {vs : List Rat} (h : vs.Pairwise (fun x y => y ≤ x)) :
    ∀ k, (clusterize k vs).Pairwise (fun a b => b.2 ≤ a.2) := by
  induction vs with
  | nil => intro k; simp [clusterize]
  | cons v vs ih =>
    intro k
    obtain ⟨h1, h2⟩ := List.pairwise_cons.mp h
    rw [show clusterize k (v :: vs) = (k, v) :: clusterize (k + 1) vs from rfl,
      List.pairwise_cons]
    refine ⟨?_, ih h2 (k + 1)⟩
    intro b hb
    exact h1 b.2 (clusterize_mem hb).2

lemma clusterize_lookup_lt {j : Nat} (vs : List Rat) : ∀ {k : Nat}, j < k →
    (clusterize k vs).lookup j = none := by
  induction vs with
  | nil => intro k _; rfl
  | cons v vs ih =>
    intro k hjk
    rw [show clusterize k (v :: vs) = (k, v) :: clusterize (k + 1) vs from rfl]
    have hbeq : (j == k) = false := by
      simp only [beq_eq_false_iff_ne]
      omega
    rw [show List.lookup j ((k, v) :: clusterize (k + 1) vs)
        = List.lookup j (clusterize (k + 1) vs) from by simp [List.lookup, hbeq]]
    exact ih (by omega)

lemma clusterize_lookup {vs : List Rat} : ∀ {k : Nat} {en : Nat × Rat},
    en ∈ clusterize k vs → (clusterize k vs).lookup en.1 = some en.2 := by
  induction vs with
  | nil => intro k en h; simp [clusterize] at h
  | cons v vs ih =>
    intro k en h
    rcases List.mem_cons.mp h with rfl | h
    · simp [List.lookup]
    · have hge := (clusterize_mem h).1
      have hbeq : (en.1 == k) = false := by
        simp only [beq_eq_false_iff_ne]
        omega
      rw [show clusterize k (v :: vs) = (k, v) :: clusterize (k + 1) vs from rfl]
      rw [show List.lookup en.1 ((k, v) :: clusterize (k + 1) vs)
          = List.lookup en.1 (clusterize (k + 1) vs) from by simp [List.lookup, hbeq]]
      exact ih h

lemma lookup_append_some {l1 l2 : List (Nat × Rat)} {a : Nat} {b : Rat}
    (h : l1.lookup a = some b) : (l1 ++ l2).lookup a = some b := by
  induction l1 with
  | nil => simp [List.lookup] at h
  | cons x xs ih =>
    obtain ⟨k, v⟩ := x
    by_cases hx : a = k
    · subst hx
      simp [List.lookup] at h ⊢
      exact h
    · have hbeq : (a == k) = false := by simp [hx]
      rw [show List.lookup a ((k, v) :: xs) = List.lookup a xs from by
        simp [List.lookup, hbeq]] at h
      rw [List.cons_append, show List.lookup a ((k, v) :: (xs ++ l2))
          = List.lookup a (xs ++ l2) from by simp [List.lookup, hbeq]]
      exact ih h

lemma lookup_append_none {l1 l2 : List (Nat × Rat)} {a : Nat}
    (h : l1.lookup a = none) : (l1 ++ l2).lookup a = l2.lookup a := by
  induction l1 with
  | nil => rfl
  | cons x xs ih =>
    obtain ⟨k, v⟩ := x
    by_cases hx : a = k
    · subst hx
      simp [List.lookup] at h
    · have hbeq : (a == k) = false := by simp [hx]
      rw [show List.lookup a ((k, v) :: xs) = List.lookup a xs from by
        simp [List.lookup, hbeq]] at h
      rw [List.cons_append, show List.lookup a ((k, v) :: (xs ++ l2))
          = List.lookup a (xs ++ l2) from by simp [List.lookup, hbeq]]
      exact ih h

lemma ccfD_nonneg {ccfs : List (Nat × Rat)} (h : ∀ en ∈ ccfs, 0 ≤ en.2) (k : Nat) :
    0 ≤ ccfD ccfs k := by
  unfold ccfD
  cases hl : ccfs.lookup k with
  | none => simp
  | some v => simpa using h (k, v) (lookup_mem hl)

lemma mergeSort_desc (draws : List Rat) :
    (draws.mergeSort (fun a b => decide (b ≤ a))).Pairwise (fun a b : Rat => b ≤ a) := by
  have htrans : ∀ a b c : Rat, (fun a b : Rat => decide (b ≤ a)) a b = true →
      (fun a b : Rat => decide (b ≤ a)) b c = true →
      (fun a b : Rat => decide (b ≤ a)) a c = true := by
    intro a b c h1 h2
    simp only [decide_eq_true_eq] at h1 h2 ⊢
    exact le_trans h2 h1
  have htotal : ∀ a b : Rat, ((fun a b : Rat => decide (b ≤ a)) a b
      || (fun a b : Rat => decide (b ≤ a)) b a) = true := by
    intro a b
    simp only [Bool.or_eq_true, decide_eq_true_eq]
    exact le_total b a
  have h := @List.sorted_mergeSort Rat (fun a b : Rat => decide (b ≤ a)) htrans htotal draws
  exact h.imp (fun hab => of_decide_eq_true hab)

lemma makePhylogeny_spec (draws : List Rat) (h01 : ∀ x ∈ draws, 0 ≤ x ∧ x < 1) :
    ∃ ps, makePhylogeny draws
        = Except.ok (ps, clusterize 2 (draws.mergeSort (fun a b => decide (b ≤ a))) ++ [(1, 1)])
      ∧ (ps.map Prod.fst).Perm
          (1 :: (clusterize 2 (draws.mergeSort (fun a b => decide (b ≤ a)))).map Prod.fst)
      ∧ ∀ k, childSum
            (ccfD (clusterize 2 (draws.mergeSort (fun a b => decide (b ≤ a))) ++ [(1, 1)])) ps k
          ≤ ccfD (clusterize 2 (draws.mergeSort (fun a b => decide (b ≤ a))) ++ [(1, 1)]) k := by
  have hmem_sorted : ∀ x ∈ draws.mergeSort (fun a b => decide (b ≤ a)), 0 ≤ x ∧ x < 1 := by
    intro x hx
    exact h01 x ((List.mergeSort_perm draws (fun a b => decide (b ≤ a))).mem_iff.mp hx)
  have hccfs_mem : ∀ en ∈ clusterize 2 (draws.mergeSort (fun a b => decide (b ≤ a))) ++ [(1, 1)],
      (0 : Rat) ≤ en.2 := by
    intro en hen
    rcases List.mem_append.mp hen with h | h
    · exact (hmem_sorted en.2 (clusterize_mem h).2).1
    · simp only [List.mem_singleton] at h
      rw [h]
      norm_num
  have hpos := ccfD_nonneg hccfs_mem
  have hcons : ∀ en ∈ ([((1 : Nat), (1 : Rat))]
      ++ clusterize 2 (draws.mergeSort (fun a b => decide (b ≤ a)))),
      ccfD (clusterize 2 (draws.mergeSort (fun a b => decide (b ≤ a))) ++ [(1, 1)]) en.1
        = en.2 := by
    intro en hen
    rcases List.mem_append.mp hen with h | h
    · simp only [List.mem_singleton] at h
      subst h
      unfold ccfD
      rw [lookup_append_none (clusterize_lookup_lt _ (by omega))]
      rfl
    · unfold ccfD
      rw [lookup_append_some (clusterize_lookup h)]
      rfl
  have hnodup : ((([((1 : Nat), (1 : Rat))]
      ++ clusterize 2 (draws.mergeSort (fun a b => decide (b ≤ a))))).map Prod.fst).Nodup := by
    rw [List.map_append]
    rw [show (([((1 : Nat), (1 : Rat))]).map Prod.fst) = [1] from rfl]
    rw [show ([1] : List Nat) ++ (clusterize 2 (draws.mergeSort (fun a b => decide (b ≤ a)))).map
        Prod.fst = 1 :: (clusterize 2 (draws.mergeSort (fun a b => decide (b ≤ a)))).map
        Prod.fst from rfl]
    rw [List.nodup_cons]
    refine ⟨?_, clusterize_nodup_keys _ 2⟩
    intro h1
    obtain ⟨en, hen, henk⟩ := List.mem_map.mp h1
    have := (clusterize_mem hen).1
    omega
  have hdesc : (clusterize 2 (draws.mergeSort (fun a b => decide (b ≤ a)))).Pairwise
      (fun a b => b.2 ≤ a.2) := clusterize_pairwise (mergeSort_desc draws) 2
  have hhead : ∀ u0 ∈ (clusterize 2 (draws.mergeSort (fun a b => decide (b ≤ a)))).head?,
      ∃ q ∈ [((1 : Nat), (1 : Rat))], u0.2 ≤ q.2 := by
    intro u0 hu0
    have hu0mem : u0 ∈ clusterize 2 (draws.mergeSort (fun a b => decide (b ≤ a))) :=
      List.mem_of_mem_head? hu0
    refine ⟨(1, 1), List.mem_cons_self .., ?_⟩
    have := (hmem_sorted u0.2 (clusterize_mem hu0mem).2).2
    exact le_of_lt this
  have hfresh : ∀ en ∈ ([((1 : Nat), (none : Option Nat))]),
      ∀ q ∈ ([((1 : Nat), (1 : Rat))]
        ++ clusterize 2 (draws.mergeSort (fun a b => decide (b ≤ a)))), en.2 ≠ some q.1 := by
    intro en hen q _
    simp only [List.mem_singleton] at hen
    rw [hen]
    simp
  have hcs : ∀ k, childSum
      (ccfD (clusterize 2 (draws.mergeSort (fun a b => decide (b ≤ a))) ++ [(1, 1)]))
      [((1 : Nat), (none : Option Nat))] k
        ≤ ccfD (clusterize 2 (draws.mergeSort (fun a b => decide (b ≤ a))) ++ [(1, 1)]) k := by
    intro k
    rw [childSum_eq_zero (by intro en hen; simp only [List.mem_singleton] at hen; rw [hen]; simp)]
    exact hpos k
  obtain ⟨res, hok, hpermres, hcsres⟩ := phyloLoop_master
    (ccfD (clusterize 2 (draws.mergeSort (fun a b => decide (b ≤ a))) ++ [(1, 1)])) hpos
    [((1 : Nat), (1 : Rat))] (clusterize 2 (draws.mergeSort (fun a b => decide (b ≤ a))))
    [((1 : Nat), (none : Option Nat))] hcons hnodup hdesc hhead hfresh hcs
  refine ⟨res, ?_, ?_, hcsres⟩
  · unfold makePhylogeny
    dsimp only
    rw [hok]
    rfl
  · exact hpermres

/-- C8: for every subclone count and every draw of CCFs in `[0, 1)`, the greedy
work-queue loop of `make_phylogeny` terminates without the popleft-on-empty
`IndexError` — the parent queue never runs dry while unassigned clusters
remain — and every non-root cluster is assigned exactly one parent. -/
theorem c8_make_phylogeny_terminates (draws : List Rat)
    (h01 : ∀ x ∈ draws, 0 ≤ x ∧ x < 1) :
    ∃ ps, makePhylogeny draws
        = Except.ok (ps,
            clusterize 2 (draws.mergeSort (fun a b => decide (b ≤ a))) ++ [(1, 1)])
      ∧ (ps.map Prod.fst).Perm (1 :: subcloneIds draws)
      ∧ ∀ c ∈ subcloneIds draws, (ps.map Prod.fst).count c = 1 := by
  obtain ⟨ps, hok, hperm, _⟩ := makePhylogeny_spec draws h01
  have hperm2 : (ps.map Prod.fst).Perm (1 :: subcloneIds draws) := hperm
  refine ⟨ps, hok, hperm2, ?_⟩
  intro c hc
  have hnd : (1 :: subcloneIds draws).Nodup := by
    rw [List.nodup_cons]
    constructor
    · intro h1
      obtain ⟨en, hen, henk⟩ := List.mem_map.mp h1
      have := (clusterize_mem hen).1
      omega
    · exact clusterize_nodup_keys _ 2
  have hmemc : c ∈ 1 :: subcloneIds draws := List.mem_cons_of_mem _ hc
  rw [hperm2.count_eq]
  exact List.count_eq_one_of_mem hnd hmemc

/-- Witness for C8 at a concrete draw of two subclone CCFs. -/
theorem c8_make_phylogeny_terminates_witness :
    (∀ x ∈ ([1 / 2, 1 / 4] : List Rat), 0 ≤ x ∧ x < 1) ∧
    ∃ ps, makePhylogeny [1 / 2, 1 / 4]
        = Except.ok (ps,
            clusterize 2 (([1 / 2, 1 / 4] : List Rat).mergeSort (fun a b => decide (b ≤ a)))
              ++ [(1, 1)])
      ∧ (ps.map Prod.fst).Perm (1 :: subcloneIds [1 / 2, 1 / 4])
      ∧ ∀ c ∈ subcloneIds [1 / 2, 1 / 4], (ps.map Prod.fst).count c = 1 :=
  ⟨by decide, c8_make_phylogeny_terminates [1 / 2, 1 / 4] (by decide)⟩

/-- C4 amended: for every draw of CCFs in `[0, 1)`, the constructed phylogeny
has root CCF 1, every subclone CCF in `[0, 1)` (a draw of exactly 0 is
possible, so `(0, 1]` is wrong on both ends), and for every cluster the sum of
its direct children's CCFs is at most its own CCF. -/
theorem c4_phylogeny_amended (draws : List Rat) (h01 : ∀ x ∈ draws, 0 ≤ x ∧ x < 1) :
    ∃ ps ccfs, makePhylogeny draws = Except.ok (ps, ccfs)
      ∧ ccfs.lookup 1 = some 1
      ∧ (∀ en ∈ ccfs, (en.1 = 1 ∧ en.2 = 1) ∨ (2 ≤ en.1 ∧ 0 ≤ en.2 ∧ en.2 < 1))
      ∧ (∀ k, childSum (ccfD ccfs) ps k ≤ ccfD ccfs k) := by
  obtain ⟨ps, hok, _, hcs⟩ := makePhylogeny_spec draws h01
  refine ⟨ps, _, hok, ?_, ?_, hcs⟩
  · rw [lookup_append_none (clusterize_lookup_lt _ (by omega))]
    rfl
  · intro en hen
    rcases List.mem_append.mp hen with h | h
    · right
      have h1 := (clusterize_mem h).1
      have h2 := (clusterize_mem h).2
      have h3 := h01 en.2
        ((List.mergeSort_perm draws (fun a b => decide (b ≤ a))).mem_iff.mp h2)
      exact ⟨h1, h3.1, h3.2⟩
    · left
      simp only [List.mem_singleton] at h
      rw [h]
      exact ⟨rfl, rfl⟩

/-- Witness for the amended C4 at a concrete single-subclone draw. -/
theorem c4_phylogeny_amended_witness :
    (∀ x ∈ ([1 / 2] : List Rat), 0 ≤ x ∧ x < 1) ∧
    ∃ ps ccfs, makePhylogeny [1 / 2] = Except.ok (ps, ccfs)
      ∧ ccfs.lookup 1 = some 1
      ∧ (∀ en ∈ ccfs, (en.1 = 1 ∧ en.2 = 1) ∨ (2 ≤ en.1 ∧ 0 ≤ en.2 ∧ en.2 < 1))
      ∧ (∀ k, childSum (ccfD ccfs) ps k ≤ ccfD ccfs k) :=
  ⟨by decide, c4_phylogeny_amended [1 / 2] (by decide)⟩
